import Mathlib

/-!
Shallow embedding of the block reader in `table/block.cc`: the `Block`
constructor, the entry decoder `DecodeEntry`, and the block iterator
(`ParseNextKey`, `Next`, `Prev`, `Seek`, `SeekToFirst`, `SeekToLast`,
`CorruptionError`), together with the well-formedness predicate for
sorted prefix-compressed blocks and the theorems about the claims.

Buffers are `List Nat` byte lists; reads go through `byteAt`, which
reduces modulo 256 (a byte read as `unsigned char`).  Loops of the C++
code are embedded as structurally recursive functions on an explicit
fuel argument; each wrapper supplies fuel that provably dominates the
loop's iteration count, so every definition evaluates in the kernel.
-/

/-- Iterator status: OK, or a corruption error with its message. -/
inductive Status where
  | ok : Status
  | corruption (msg : String) : Status
deriving DecidableEq

/-- Cursor state of `Block::Iter`: current entry offset, restart index,
reconstructed key, the value slice `(offset, length)` into the block
data, and the sticky status. -/
structure IterState where
  current : Nat
  restart_index : Nat
  key : List Nat
  valueOff : Nat
  valueLen : Nat
  status : Status
deriving DecidableEq

/-- Geometry handed to `Block::Iter`: block bytes, offset of the restart
array, and the number of restart points. -/
structure BlockGeom where
  data : List Nat
  restarts : Nat
  numRestarts : Nat
deriving DecidableEq

/-- Comparator over byte-string keys, returning a signed result. -/
abbrev Cmp := List Nat → List Nat → Int

/-- Modulus of 32-bit unsigned arithmetic. -/
def u32Mod : Nat := 4294967296

/-- Byte of the buffer at index `i`, read as `unsigned char`. -/
def byteAt (data : List Nat) (i : Nat) : Nat := data.getD i 0 % 256

/-- Consecutive bytes `data[off .. off+len)`. -/
def bytesAt (data : List Nat) (off len : Nat) : List Nat :=
  (List.range len).map fun j => byteAt data (off + j)

/-- DecodeFixed32: little-endian 32-bit read at offset `off`. -/
def decodeFixed32 (data : List Nat) (off : Nat) : Nat :=
  byteAt data off + 256 * byteAt data (off + 1) + 65536 * byteAt data (off + 2) +
    16777216 * byteAt data (off + 3)

/-- Modelled from the spec: the external variable-length unsigned-32
decoder `GetVarint32Ptr` (declared in `util/coding.h`, outside this
file) consumed by `DecodeEntry`.  Base-128 groups, 7 data bits per
byte, continuation bit set on all but the final byte, least-significant
group first; reading past `limit` is a failure.  The fuel starts at
`limit - p`, one unit per byte consumed, so it never runs out before
`limit` is reached. -/
def getVarint32Aux (data : List Nat) (limit : Nat) :
    Nat → Nat → Nat → Nat → Option (Nat × Nat)
  | 0, _, _, _ => none
  | fuel + 1, p, shift, acc =>
    if p < limit then
      let b := byteAt data p
      if b < 128 then some (p + 1, (acc + b * 2 ^ shift) % u32Mod)
      else getVarint32Aux data limit fuel (p + 1) (shift + 7) (acc + (b - 128) * 2 ^ shift)
    else none

/-- Modelled from the spec: wrapper of the varint-32 decoder, yielding
the updated position and the decoded value, or `none` on failure. -/
def getVarint32 (data : List Nat) (p limit : Nat) : Option (Nat × Nat) :=
  getVarint32Aux data limit (limit - p) p 0 0

/-- Three consecutive varint-32 decodes (the general path of
`DecodeEntry`), yielding the final position and the three lengths. -/
def varint3 (data : List Nat) (p limit : Nat) : Option (Nat × Nat × Nat × Nat) :=
  match getVarint32 data p limit with
  | none => none
  | some (p1, shared) =>
    match getVarint32 data p1 limit with
    | none => none
    | some (p2, nonShared) =>
      match getVarint32 data p2 limit with
      | none => none
      | some (p3, valueLength) => some (p3, shared, nonShared, valueLength)

/-- Length fields of the entry at `p`: the single-byte fast path when
three bytes remain and all three are below 128, the varint path
otherwise. -/
def decodeLens (data : List Nat) (p limit : Nat) : Option (Nat × Nat × Nat × Nat) :=
  if byteAt data p ||| byteAt data (p + 1) ||| byteAt data (p + 2) < 128 then
    some (p + 3, byteAt data p, byteAt data (p + 1), byteAt data (p + 2))
  else varint3 data p limit

/-- DecodeEntry: read the three length fields of the entry at `p`,
never dereferencing at or past `limit`.  Returns the position of the
key delta plus `(shared, non_shared, value_length)`, or `none` on any
failure.  The final length check is the 32-bit comparison
`uint32(limit - p) < non_shared + value_length` of the source. -/
def decodeEntry (data : List Nat) (p limit : Nat) : Option (Nat × Nat × Nat × Nat) :=
  if limit - p < 3 then none
  else
    match decodeLens data p limit with
    | none => none
    | some (q, shared, nonShared, valueLength) =>
      if (limit - q) % u32Mod < (nonShared + valueLength) % u32Mod then none
      else some (q, shared, nonShared, valueLength)

/-- Offset in `data` just past the end of the current entry. -/
def nextEntryOffset (st : IterState) : Nat := st.valueOff + st.valueLen

/-- GetRestartPoint: fixed32 read of restart point `index`. -/
def getRestartPoint (B : BlockGeom) (index : Nat) : Nat :=
  decodeFixed32 B.data (B.restarts + 4 * index)

/-- SeekToRestartPoint: clear the key, set the restart index, and park
the value as an empty slice at the restart offset; `current` is fixed
by the next `ParseNextKey`. -/
def seekToRestartPoint (B : BlockGeom) (st : IterState) (index : Nat) : IterState :=
  { st with key := [], restart_index := index,
            valueOff := getRestartPoint B index, valueLen := 0 }

/-- CorruptionError: park the cursor past the end, set the sticky
corruption status, and clear key and value. -/
def corruptionError (B : BlockGeom) (st : IterState) : IterState :=
  { st with current := B.restarts, restart_index := B.numRestarts,
            status := Status.corruption "bad entry in block",
            key := [], valueOff := 0, valueLen := 0 }

/-- Loop advancing `restart_index` while the next restart point is
still before `current` (the trailing loop of `ParseNextKey`). -/
def advanceRIAux (B : BlockGeom) (current : Nat) : Nat → Nat → Nat
  | 0, ri => ri
  | fuel + 1, ri =>
    if ri + 1 < B.numRestarts ∧ getRestartPoint B (ri + 1) < current then
      advanceRIAux B current fuel (ri + 1)
    else ri

/-- Wrapper of `advanceRIAux` with fuel dominating the iteration count. -/
def advanceRI (B : BlockGeom) (current ri : Nat) : Nat :=
  advanceRIAux B current B.numRestarts ri

/-- ParseNextKey: step to the entry starting at the end of the current
value.  Returns the new state and `true` on success; on exhaustion or
corruption, the invalid state and `false`. -/
def parseNextKey (B : BlockGeom) (st : IterState) : IterState × Bool :=
  let current := nextEntryOffset st
  if B.restarts ≤ current then
    ({ st with current := B.restarts, restart_index := B.numRestarts }, false)
  else
    match decodeEntry B.data current B.restarts with
    | none => (corruptionError B st, false)
    | some (q, shared, nonShared, valueLength) =>
      if st.key.length < shared then (corruptionError B st, false)
      else
        ({ st with current := current,
                   key := st.key.take shared ++ bytesAt B.data q nonShared,
                   valueOff := q + nonShared, valueLen := valueLength,
                   restart_index := advanceRI B current st.restart_index }, true)

/-- Repeated `ParseNextKey` until it returns `false`: the list of states
after each successful step, and the final (invalid) state. -/
def forwardRunAux (B : BlockGeom) : Nat → IterState → List IterState × IterState
  | 0, st => ([], st)
  | fuel + 1, st =>
    let r := parseNextKey B st
    if r.2 then
      let rest := forwardRunAux B fuel r.1
      (r.1 :: rest.1, rest.2)
    else ([], r.1)

/-- Wrapper of `forwardRunAux`; `B.restarts + 2` units of fuel dominate
the step count, since each successful step strictly advances the entry
offset, which stays below `B.restarts`. -/
def forwardRun (B : BlockGeom) (st : IterState) : List IterState × IterState :=
  forwardRunAux B (B.restarts + 2) st

/-- State of a freshly constructed `Block::Iter`. -/
def initIter (B : BlockGeom) : IterState :=
  { current := B.restarts, restart_index := B.numRestarts, key := [],
    valueOff := 0, valueLen := 0, status := Status.ok }

/-- Next: one `ParseNextKey` step. -/
def IterNext (B : BlockGeom) (st : IterState) : IterState := (parseNextKey B st).1

/-- Backward scan of `Prev`: walk `restart_index` down while the
restart point is at or past `original`; `none` once index 0 is reached
with no eligible restart point. -/
def prevScanAux (B : BlockGeom) (original : Nat) : Nat → Nat → Option Nat
  | 0, _ => none
  | fuel + 1, ri =>
    if original ≤ getRestartPoint B ri then
      if ri = 0 then none else prevScanAux B original fuel (ri - 1)
    else some ri

/-- Wrapper of `prevScanAux`; fuel `ri + 1` is exact. -/
def prevScan (B : BlockGeom) (original ri : Nat) : Option Nat :=
  prevScanAux B original (ri + 1) ri

/-- Replay loop shared by `Prev` and `SeekToLast`: keep parsing while
the parse succeeds and the end of the parsed entry is below `bound`. -/
def scanToAux (B : BlockGeom) (bound : Nat) : Nat → IterState → IterState
  | 0, st => st
  | fuel + 1, st =>
    let r := parseNextKey B st
    if r.2 = true ∧ nextEntryOffset r.1 < bound then scanToAux B bound fuel r.1
    else r.1

/-- Prev: scan back to the nearest restart point before the current
entry, then replay forward until the entry ending at the original
offset is reconstructed; invalid when no such restart point exists. -/
def IterPrev (B : BlockGeom) (st : IterState) : IterState :=
  let original := st.current
  match prevScan B original st.restart_index with
  | none => { st with current := B.restarts, restart_index := B.numRestarts }
  | some ri => scanToAux B original (B.restarts + 2) (seekToRestartPoint B st ri)

/-- Binary search of `Seek` over `[left, right]`, returning the final
`left` (or `none` on a corrupt restart entry) together with the probe
trace: each probed midpoint with the key handed to the comparator,
`none` for the probe that failed. -/
def seekBinaryAux (B : BlockGeom) (cmp : Cmp) (target : List Nat) :
    Nat → Nat → Nat → Option Nat × List (Nat × Option (List Nat))
  | 0, left, _ => (some left, [])
  | fuel + 1, left, right =>
    if left < right then
      let mid := (left + right + 1) / 2
      match decodeEntry B.data (getRestartPoint B mid) B.restarts with
      | none => (none, [(mid, none)])
      | some (q, shared, nonShared, _) =>
        if shared ≠ 0 then (none, [(mid, none)])
        else
          let midKey := bytesAt B.data q nonShared
          let r :=
            if cmp midKey target < 0 then seekBinaryAux B cmp target fuel mid right
            else seekBinaryAux B cmp target fuel left (mid - 1)
          (r.1, (mid, some midKey) :: r.2)
    else (some left, [])

/-- Wrapper of `seekBinaryAux`; the window shrinks every round, so
`right - left + 1` units of fuel dominate the round count. -/
def seekBinary (B : BlockGeom) (cmp : Cmp) (target : List Nat) (left right : Nat) :
    Option Nat × List (Nat × Option (List Nat)) :=
  seekBinaryAux B cmp target (right - left + 1) left right

/-- Linear phase of `Seek`: parse forward until the reconstructed key
compares at or above `target`, or entries are exhausted. -/
def seekLinearAux (B : BlockGeom) (cmp : Cmp) (target : List Nat) :
    Nat → IterState → IterState
  | 0, st => st
  | fuel + 1, st =>
    let r := parseNextKey B st
    if r.2 then
      if 0 ≤ cmp r.1.key target then r.1
      else seekLinearAux B cmp target fuel r.1
    else r.1

/-- Seek: binary search over the restart array for the last restart
point with key before `target`, then linear search from there. -/
def IterSeek (B : BlockGeom) (cmp : Cmp) (st : IterState) (target : List Nat) : IterState :=
  match seekBinary B cmp target 0 (B.numRestarts - 1) with
  | (none, _) => corruptionError B st
  | (some left, _) =>
    seekLinearAux B cmp target (B.restarts + 2) (seekToRestartPoint B st left)

/-- SeekToFirst: restart point 0, then one parse. -/
def IterSeekToFirst (B : BlockGeom) (st : IterState) : IterState :=
  (parseNextKey B (seekToRestartPoint B st 0)).1

/-- SeekToLast: last restart point, then parse until the end of the
parsed entry reaches the restart array. -/
def IterSeekToLast (B : BlockGeom) (st : IterState) : IterState :=
  scanToAux B B.restarts (B.restarts + 2) (seekToRestartPoint B st (B.numRestarts - 1))

/-- Valid(): the cursor points at an entry before the restart array. -/
def IterValid (B : BlockGeom) (st : IterState) : Bool := decide (st.current < B.restarts)

/-- Bytes of the current value slice. -/
def valueBytes (B : BlockGeom) (st : IterState) : List Nat :=
  bytesAt B.data st.valueOff st.valueLen

/-- Start state of the canonical forward traversal: a fresh iterator
seeked to restart point 0. -/
def startState (B : BlockGeom) : IterState := seekToRestartPoint B (initIter B) 0

/-- States after each entry of the canonical forward traversal. -/
def blockStates (B : BlockGeom) : List IterState := (forwardRun B (startState B)).1

/-- Final state of the canonical forward traversal. -/
def blockFinal (B : BlockGeom) : IterState := (forwardRun B (startState B)).2

/-- Number of entries of the block. -/
def numEntries (B : BlockGeom) : Nat := (blockStates B).length

/-- State of the traversal at entry `j`. -/
def entryState (B : BlockGeom) (j : Nat) : IterState := (blockStates B).getD j (initIter B)

/-- Offset of entry `j`. -/
def entryOff (B : BlockGeom) (j : Nat) : Nat := (entryState B j).current

/-- Key of entry `j`. -/
def entryKey (B : BlockGeom) (j : Nat) : List Nat := (entryState B j).key

/-- Value bytes of entry `j`. -/
def entryVal (B : BlockGeom) (j : Nat) : List Nat := valueBytes B (entryState B j)

/-- Key-value pairs of the block in forward order. -/
def entriesList (B : BlockGeom) : List (List Nat × List Nat) :=
  (blockStates B).map fun s => (s.key, valueBytes B s)

/-- Index of the first state of `l` whose key compares at or above
`target`; `l.length` when there is none. -/
def findGE (cmp : Cmp) (target : List Nat) : List IterState → Nat
  | [] => 0
  | s :: rest => if 0 ≤ cmp s.key target then 0 else findGE cmp target rest + 1

/-- Index of the first entry of the block with key at or above
`target`; `numEntries B` when there is none. -/
def firstGE (B : BlockGeom) (cmp : Cmp) (target : List Nat) : Nat :=
  findGE cmp target (blockStates B)

/-- Constructed `Block`: data, validated size (0 is the error marker),
and the offset of the restart array. -/
structure BlockC where
  data : List Nat
  size : Nat
  restart_offset : Nat
deriving DecidableEq

/-- Block construction from a raw buffer: mark invalid (`size = 0`)
when the buffer is shorter than 4 bytes or the trailing restart count
cannot fit; otherwise compute the restart-array offset.  The
`restart_offset` field of an invalid block is left at 0 (it is never
read, matching the uninitialized field of the source). -/
def mkBlock (data : List Nat) : BlockC :=
  let size := data.length
  if size < 4 then { data := data, size := 0, restart_offset := 0 }
  else
    let nr := decodeFixed32 data (size - 4)
    if (size - 4) / 4 < nr then { data := data, size := 0, restart_offset := 0 }
    else { data := data, size := size, restart_offset := size - (1 + nr) * 4 }

/-- NumRestarts(): trailing fixed32 of the block. -/
def numRestartsOf (b : BlockC) : Nat := decodeFixed32 b.data (b.size - 4)

/-- Result of the iterator factory: the error iterator, the empty
iterator, or a real cursor bound to a comparator and a geometry. -/
inductive BlockIter where
  | errorIter (s : Status) : BlockIter
  | emptyIter : BlockIter
  | cursor (cmp : Cmp) (geom : BlockGeom) (st : IterState) : BlockIter

/-- Navigation operations of the iterator interface. -/
inductive NavOp where
  | next : NavOp
  | prev : NavOp
  | seekOp (target : List Nat) : NavOp
  | seekToFirst : NavOp
  | seekToLast : NavOp

/-- Apply one navigation operation.  Modelled from the spec: the error
iterator (`NewErrorIterator`) and the empty iterator
(`NewEmptyIterator`), both defined outside this file, are never
positioned at an entry, and no navigation call changes that. -/
def applyOp : NavOp → BlockIter → BlockIter
  | _, BlockIter.errorIter s => BlockIter.errorIter s
  | _, BlockIter.emptyIter => BlockIter.emptyIter
  | NavOp.next, BlockIter.cursor c g st => BlockIter.cursor c g (IterNext g st)
  | NavOp.prev, BlockIter.cursor c g st => BlockIter.cursor c g (IterPrev g st)
  | NavOp.seekOp t, BlockIter.cursor c g st => BlockIter.cursor c g (IterSeek g c st t)
  | NavOp.seekToFirst, BlockIter.cursor c g st => BlockIter.cursor c g (IterSeekToFirst g st)
  | NavOp.seekToLast, BlockIter.cursor c g st => BlockIter.cursor c g (IterSeekToLast g st)

/-- Apply a sequence of navigation operations, first to last. -/
def applyOps (ops : List NavOp) (it : BlockIter) : BlockIter :=
  ops.foldl (fun a o => applyOp o a) it

/-- valid() of an iterator variant.  Modelled from the spec for the
error and empty variants: never valid. -/
def BlockIter.validB : BlockIter → Bool
  | BlockIter.errorIter _ => false
  | BlockIter.emptyIter => false
  | BlockIter.cursor _ g st => IterValid g st

/-- status() of an iterator variant.  Modelled from the spec for the
error and empty variants: the stored error, and OK respectively. -/
def BlockIter.statusB : BlockIter → Status
  | BlockIter.errorIter s => s
  | BlockIter.emptyIter => Status.ok
  | BlockIter.cursor _ _ st => st.status

/-- NewIterator: the error iterator on an invalid block, the empty
iterator when the restart count is zero, and otherwise a fresh cursor
over `(data, restart_offset, num_restarts)` bound to the comparator. -/
def NewIterator (b : BlockC) (cmp : Cmp) : BlockIter :=
  if b.size < 4 then BlockIter.errorIter (Status.corruption "bad block contents")
  else if numRestartsOf b = 0 then BlockIter.emptyIter
  else BlockIter.cursor cmp { data := b.data, restarts := b.restart_offset,
                              numRestarts := numRestartsOf b }
         (initIter { data := b.data, restarts := b.restart_offset,
                     numRestarts := numRestartsOf b })

/-- Projection of the cursor state that the parse step both reads and
determines: everything except `restart_index`. -/
def stView (st : IterState) : Nat × List Nat × Nat × Nat × Status :=
  (st.current, st.key, st.valueOff, st.valueLen, st.status)

/-- Big-step relation for repeated `ParseNextKey`: `Run B st l f` holds
when successive parse steps from `st` succeed through the states of
`l` and then fail, leaving the final state `f`. -/
inductive Run (B : BlockGeom) : IterState → List IterState → IterState → Prop where
  | stop : ∀ st f, parseNextKey B st = (f, false) → Run B st [] f
  | step : ∀ st r l f, parseNextKey B st = (r, true) → Run B r l f → Run B st (r :: l) f

/-- Lexicographic byte-string comparator (the bytewise comparator of
the surrounding system, used to instantiate the theorems). -/
def byteCompare : List Nat → List Nat → Int
  | [], [] => 0
  | [], _ :: _ => -1
  | _ :: _, [] => 1
  | a :: as, b :: bs => if a < b then -1 else if b < a then 1 else byteCompare as bs

/-- Properties of the comparator used by the seek theorems: a total
order on keys presented as a three-way comparison. -/
structure CmpOk (cmp : Cmp) : Prop where
  refl : ∀ a, cmp a a = 0
  trans_lt : ∀ a b c, cmp a b < 0 → cmp b c < 0 → cmp a c < 0

/-- Well-formed sorted block: at least one restart point, restart point
0 at offset 0, a clean full forward traversal, every restart point at
the offset of an entry whose decoded shared length is 0, strictly
increasing restart offsets, and keys strictly sorted under `cmp`. -/
structure WellFormed (B : BlockGeom) (cmp : Cmp) : Prop where
  nrPos : 0 < B.numRestarts
  rp0 : getRestartPoint B 0 = 0
  clean : (blockFinal B).status = Status.ok
  boundary : ∀ i < B.numRestarts, ∃ j < numEntries B,
    entryOff B j = getRestartPoint B i ∧
    ∃ q ns vl, decodeEntry B.data (getRestartPoint B i) B.restarts = some (q, 0, ns, vl)
  mono : ∀ g < B.numRestarts, ∀ i < g, getRestartPoint B i < getRestartPoint B g
  sorted : ∀ g < numEntries B, ∀ j < g, cmp (entryKey B j) (entryKey B g) < 0


/-- State just before entry `j` of the canonical traversal: the start
state for `j = 0`, and the state at entry `j - 1` otherwise. -/
def entryPre (B : BlockGeom) (j : Nat) : IterState :=
  if j = 0 then startState B else entryState B (j - 1)

/-- Concrete well-formed block with two entries and two restart points:
key `[97]` with value `[120]` at offset 0, key `[98, 99]` with value
`[121]` at offset 5; restart array `[0, 5]`. -/
def wData : List Nat :=
  [0, 1, 1, 97, 120, 0, 2, 1, 98, 99, 121, 0, 0, 0, 0, 5, 0, 0, 0, 2, 0, 0, 0]

/-- Geometry of `wData` as computed by `mkBlock`. -/
def wGeom : BlockGeom := { data := wData, restarts := 11, numRestarts := 2 }

/-- Concrete block whose second entry declares a shared length of 5
against a reconstructed key of length 1: parsing it is a corruption. -/
def c3Data : List Nat :=
  [0, 1, 1, 97, 120, 5, 1, 1, 98, 121, 0, 0, 0, 0, 1, 0, 0, 0]

/-- Geometry of `c3Data` as computed by `mkBlock`. -/
def c3Geom : BlockGeom := { data := c3Data, restarts := 10, numRestarts := 1 }

/-- Concrete block whose second restart point addresses an entry with
nonzero shared length (a corrupt restart entry). -/
def c8Data : List Nat :=
  [0, 1, 1, 97, 120, 1, 1, 1, 98, 121, 0, 0, 0, 0, 5, 0, 0, 0, 2, 0, 0, 0]

/-- Geometry of `c8Data` as computed by `mkBlock`. -/
def c8Geom : BlockGeom := { data := c8Data, restarts := 10, numRestarts := 2 }

/-- Concrete entry bytes whose varint-decoded `non_shared` is
`2 ^ 32 - 1`: shared 0, then `[255, 255, 255, 255, 15]`, then value
length 1. -/
def c7Data : List Nat := [0, 255, 255, 255, 255, 15, 1]

/-- Invariant property of a binary-search window bound: index 0, or a
restart point addressing an entry whose key is below the target. -/
def SearchLB (B : BlockGeom) (cmp : Cmp) (target : List Nat) (i : Nat) : Prop :=
  i = 0 ∨ ∃ j < numEntries B,
    getRestartPoint B i = entryOff B j ∧ cmp (entryKey B j) target < 0

/-! ### Positions returned by the decoders -/

/-- A successful varint decode consumes at least one byte and stays
within `limit`. -/
theorem getVarint32Aux_bounds (data : List Nat) (limit : Nat) :
    ∀ fuel p shift acc q v,
      getVarint32Aux data limit fuel p shift acc = some (q, v) → p < q ∧ q ≤ limit := by
  intro fuel
  induction fuel with
  | zero => intro p shift acc q v h; simp [getVarint32Aux] at h
  | succ n ih =>
    intro p shift acc q v h
    rw [getVarint32Aux] at h
    by_cases hp : p < limit
    · rw [if_pos hp] at h
      by_cases hb : byteAt data p < 128
      · rw [if_pos hb] at h
        have h1 : p + 1 = q := congrArg Prod.fst (Option.some.inj h)
        omega
      · rw [if_neg hb] at h
        have := ih (p + 1) (shift + 7) _ q v h
        omega
    · rw [if_neg hp] at h
      exact absurd h (by simp)

/-- A successful `getVarint32` strictly advances and stays within
`limit`. -/
theorem getVarint32_bounds (data : List Nat) (p limit q v : Nat)
    (h : getVarint32 data p limit = some (q, v)) : p < q ∧ q ≤ limit :=
  getVarint32Aux_bounds data limit (limit - p) p 0 0 q v h

/-- Three successful varint decodes advance at least three bytes and
stay within `limit`. -/
theorem varint3_bounds (data : List Nat) (p limit q sh ns vl : Nat)
    (h : varint3 data p limit = some (q, sh, ns, vl)) : p + 3 ≤ q ∧ q ≤ limit := by
  unfold varint3 at h
  cases h1 : getVarint32 data p limit with
  | none => simp only [h1] at h; exact absurd h (by simp)
  | some r1 =>
    obtain ⟨p1, v1⟩ := r1
    simp only [h1] at h
    cases h2 : getVarint32 data p1 limit with
    | none => simp only [h2] at h; exact absurd h (by simp)
    | some r2 =>
      obtain ⟨p2, v2⟩ := r2
      simp only [h2] at h
      cases h3 : getVarint32 data p2 limit with
      | none => simp only [h3] at h; exact absurd h (by simp)
      | some r3 =>
        obtain ⟨p3, v3⟩ := r3
        simp only [h3] at h
        have b1 := getVarint32_bounds data p limit p1 v1 h1
        have b2 := getVarint32_bounds data p1 limit p2 v2 h2
        have b3 := getVarint32_bounds data p2 limit p3 v3 h3
        have e2 : p3 = q := by
          have := Option.some.inj h
          exact congrArg Prod.fst this
        omega

/-- Successful `decodeLens` advances at least three bytes and stays
within `limit`, provided at least three bytes remain. -/
theorem decodeLens_bounds (data : List Nat) (p limit q sh ns vl : Nat)
    (h3 : ¬limit - p < 3)
    (h : decodeLens data p limit = some (q, sh, ns, vl)) : p + 3 ≤ q ∧ q ≤ limit := by
  unfold decodeLens at h
  by_cases hfast : byteAt data p ||| byteAt data (p + 1) ||| byteAt data (p + 2) < 128
  · rw [if_pos hfast] at h
    have e : p + 3 = q := congrArg Prod.fst (Option.some.inj h)
    omega
  · rw [if_neg hfast] at h
    exact varint3_bounds data p limit q sh ns vl h

/-- Successful `decodeEntry` advances at least three bytes and stays
within `limit`. -/
theorem decodeEntry_bounds (data : List Nat) (p limit q sh ns vl : Nat)
    (h : decodeEntry data p limit = some (q, sh, ns, vl)) : p + 3 ≤ q ∧ q ≤ limit := by
  unfold decodeEntry at h
  by_cases hsz : limit - p < 3
  · rw [if_pos hsz] at h; exact absurd h (by simp)
  · rw [if_neg hsz] at h
    cases hl : decodeLens data p limit with
    | none => simp only [hl] at h; exact absurd h (by simp)
    | some r =>
      obtain ⟨q0, sh0, ns0, vl0⟩ := r
      simp only [hl] at h
      by_cases hc : (limit - q0) % u32Mod < (ns0 + vl0) % u32Mod
      · rw [if_pos hc] at h; exact absurd h (by simp)
      · rw [if_neg hc] at h
        obtain ⟨e1, e2, e3, e4⟩ : q0 = q ∧ sh0 = sh ∧ ns0 = ns ∧ vl0 = vl := by
          have := Option.some.inj h
          exact ⟨congrArg (fun x => x.1) this, congrArg (fun x => x.2.1) this,
                 congrArg (fun x => x.2.2.1) this, congrArg (fun x => x.2.2.2) this⟩
        have hb := decodeLens_bounds data p limit q0 sh0 ns0 vl0 hsz hl
        omega

/-! ### Characterization of one parse step -/

/-- Exhaustion branch of `ParseNextKey`. -/
theorem parse_exhaust (B : BlockGeom) (st : IterState) (h : B.restarts ≤ nextEntryOffset st) :
    parseNextKey B st =
      ({ st with current := B.restarts, restart_index := B.numRestarts }, false) := by
  simp only [parseNextKey]
  rw [if_pos h]

/-- Corruption branch of `ParseNextKey` when the entry fails to decode. -/
theorem parse_corrupt_none (B : BlockGeom) (st : IterState)
    (hlt : nextEntryOffset st < B.restarts)
    (hd : decodeEntry B.data (nextEntryOffset st) B.restarts = none) :
    parseNextKey B st = (corruptionError B st, false) := by
  simp only [parseNextKey]
  rw [if_neg (by omega)]
  simp only [hd]

/-- Corruption branch of `ParseNextKey` when the decoded shared length
exceeds the reconstructed key. -/
theorem parse_corrupt_shared (B : BlockGeom) (st : IterState) (q sh ns vl : Nat)
    (hlt : nextEntryOffset st < B.restarts)
    (hd : decodeEntry B.data (nextEntryOffset st) B.restarts = some (q, sh, ns, vl))
    (hk : st.key.length < sh) :
    parseNextKey B st = (corruptionError B st, false) := by
  simp only [parseNextKey]
  rw [if_neg (by omega)]
  simp only [hd]
  rw [if_pos hk]

/-- Success branch of `ParseNextKey`. -/
theorem parse_success (B : BlockGeom) (st : IterState) (q sh ns vl : Nat)
    (hlt : nextEntryOffset st < B.restarts)
    (hd : decodeEntry B.data (nextEntryOffset st) B.restarts = some (q, sh, ns, vl))
    (hk : sh ≤ st.key.length) :
    parseNextKey B st =
      ({ st with current := nextEntryOffset st,
                 key := st.key.take sh ++ bytesAt B.data q ns,
                 valueOff := q + ns, valueLen := vl,
                 restart_index := advanceRI B (nextEntryOffset st) st.restart_index }, true) := by
  simp only [parseNextKey]
  rw [if_neg (by omega)]
  simp only [hd]
  rw [if_neg (by omega)]

/-- Elimination of a successful parse step. -/
theorem parse_true_elim (B : BlockGeom) (st : IterState)
    (h : (parseNextKey B st).2 = true) :
    nextEntryOffset st < B.restarts ∧
    ∃ q sh ns vl,
      decodeEntry B.data (nextEntryOffset st) B.restarts = some (q, sh, ns, vl) ∧
      sh ≤ st.key.length ∧
      (parseNextKey B st).1 =
        { st with current := nextEntryOffset st,
                  key := st.key.take sh ++ bytesAt B.data q ns,
                  valueOff := q + ns, valueLen := vl,
                  restart_index := advanceRI B (nextEntryOffset st) st.restart_index } := by
  by_cases hge : B.restarts ≤ nextEntryOffset st
  · rw [parse_exhaust B st hge] at h; exact absurd h (by simp)
  · cases hd : decodeEntry B.data (nextEntryOffset st) B.restarts with
    | none =>
      rw [parse_corrupt_none B st (by omega) hd] at h
      exact absurd h (by simp)
    | some r =>
      obtain ⟨q, sh, ns, vl⟩ := r
      by_cases hk : st.key.length < sh
      · rw [parse_corrupt_shared B st q sh ns vl (by omega) hd hk] at h
        exact absurd h (by simp)
      · refine ⟨by omega, q, sh, ns, vl, rfl, by omega, ?_⟩
        rw [parse_success B st q sh ns vl (by omega) hd (by omega)]

/-- Elimination of a failed parse step. -/
theorem parse_false_elim (B : BlockGeom) (st : IterState)
    (h : (parseNextKey B st).2 = false) :
    (B.restarts ≤ nextEntryOffset st ∧
      parseNextKey B st =
        ({ st with current := B.restarts, restart_index := B.numRestarts }, false)) ∨
    (nextEntryOffset st < B.restarts ∧
      parseNextKey B st = (corruptionError B st, false)) := by
  by_cases hge : B.restarts ≤ nextEntryOffset st
  · exact Or.inl ⟨hge, parse_exhaust B st hge⟩
  · cases hd : decodeEntry B.data (nextEntryOffset st) B.restarts with
    | none => exact Or.inr ⟨by omega, parse_corrupt_none B st (by omega) hd⟩
    | some r =>
      obtain ⟨q, sh, ns, vl⟩ := r
      by_cases hk : st.key.length < sh
      · exact Or.inr ⟨by omega, parse_corrupt_shared B st q sh ns vl (by omega) hd hk⟩
      · rw [parse_success B st q sh ns vl (by omega) hd (by omega)] at h
        exact absurd h (by simp)

/-- A successful parse step strictly advances `nextEntryOffset`, sets
`current` to the old `nextEntryOffset`, and preserves the status. -/
theorem parse_progress (B : BlockGeom) (st : IterState)
    (h : (parseNextKey B st).2 = true) :
    nextEntryOffset st < B.restarts ∧
    (parseNextKey B st).1.current = nextEntryOffset st ∧
    nextEntryOffset st < nextEntryOffset (parseNextKey B st).1 ∧
    (parseNextKey B st).1.status = st.status := by
  obtain ⟨hlt, q, sh, ns, vl, hd, hk, he⟩ := parse_true_elim B st h
  have hb := decodeEntry_bounds B.data (nextEntryOffset st) B.restarts q sh ns vl hd
  rw [he]
  refine ⟨hlt, rfl, ?_, rfl⟩
  simp only [nextEntryOffset] at hlt hb ⊢
  omega

/-- Any parse step either preserves the status or sets the corruption
status of `CorruptionError`. -/
theorem parse_status (B : BlockGeom) (st : IterState) :
    (parseNextKey B st).1.status = st.status ∨
    (parseNextKey B st).1.status = Status.corruption "bad entry in block" := by
  cases h2 : (parseNextKey B st).2 with
  | true =>
    obtain ⟨_, _, _, he⟩ := parse_progress B st h2
    exact Or.inl he
  | false =>
    rcases parse_false_elim B st h2 with ⟨_, he⟩ | ⟨_, he⟩
    · rw [he]; exact Or.inl rfl
    · rw [he]; exact Or.inr rfl

/-! ### The run relation and the traversal -/

/-- Unfolding equation of `forwardRunAux` at positive fuel. -/
theorem forwardRunAux_succ (B : BlockGeom) (fuel : Nat) (st : IterState) :
    forwardRunAux B (fuel + 1) st =
      if (parseNextKey B st).2 then
        ((parseNextKey B st).1 :: (forwardRunAux B fuel (parseNextKey B st).1).1,
         (forwardRunAux B fuel (parseNextKey B st).1).2)
      else ([], (parseNextKey B st).1) := rfl

/-- With fuel beyond the remaining step count, `forwardRunAux` computes
a complete run. -/
theorem forwardRunAux_run (B : BlockGeom) :
    ∀ fuel st, B.restarts + 1 - nextEntryOffset st < fuel →
      Run B st (forwardRunAux B fuel st).1 (forwardRunAux B fuel st).2 := by
  intro fuel
  induction fuel with
  | zero => intro st h; omega
  | succ n ih =>
    intro st h
    rw [forwardRunAux_succ]
    cases h2 : (parseNextKey B st).2 with
    | false =>
      rw [if_neg (by simp)]
      exact Run.stop st (parseNextKey B st).1 (by rw [← h2])
    | true =>
      rw [if_pos rfl]
      obtain ⟨h3, _, h4, _⟩ := parse_progress B st h2
      exact Run.step st (parseNextKey B st).1 _ _ (by rw [← h2]) (ih _ (by omega))

/-- The wrapped traversal computes a complete run. -/
theorem run_forwardRun (B : BlockGeom) (st : IterState) :
    Run B st (forwardRun B st).1 (forwardRun B st).2 :=
  forwardRunAux_run B (B.restarts + 2) st (by omega)

/-- Every state has a complete run. -/
theorem run_exists (B : BlockGeom) (st : IterState) : ∃ l f, Run B st l f :=
  ⟨(forwardRun B st).1, (forwardRun B st).2, run_forwardRun B st⟩

/-- The canonical traversal of the block as a run. -/
theorem run_block (B : BlockGeom) : Run B (startState B) (blockStates B) (blockFinal B) :=
  run_forwardRun B (startState B)

/-- Inversion of a run with at least one state. -/
theorem run_cons_elim (B : BlockGeom) (st r : IterState) (l : List IterState)
    (f : IterState) (h : Run B st (r :: l) f) :
    parseNextKey B st = (r, true) ∧ Run B r l f := by
  cases h with
  | step _ _ _ _ h1 h2 => exact ⟨h1, h2⟩

/-- Inversion of a run with no states. -/
theorem run_nil_elim (B : BlockGeom) (st f : IterState) (h : Run B st [] f) :
    parseNextKey B st = (f, false) := by
  cases h with
  | stop _ _ h1 => exact h1

/-- Runs are no longer than the remaining room before the restart
array. -/
theorem run_length (B : BlockGeom) (st : IterState) (l : List IterState) (f : IterState)
    (h : Run B st l f) : l.length ≤ B.restarts + 1 - nextEntryOffset st := by
  induction h with
  | stop s f2 hp => simp
  | step s r l2 f2 hp hr ih =>
    have hpr := parse_progress B s (by rw [hp])
    simp only [hp] at hpr
    simp only [List.length_cons]
    omega

/-- The final state of a run is parked at the restart array with
restart index `num_restarts`. -/
theorem run_final (B : BlockGeom) (st : IterState) (l : List IterState) (f : IterState)
    (h : Run B st l f) : f.current = B.restarts ∧ f.restart_index = B.numRestarts := by
  induction h with
  | stop s f2 hp =>
    rcases parse_false_elim B s (by rw [hp]) with ⟨_, he⟩ | ⟨_, he⟩ <;>
    · rw [hp] at he
      injection he with he1 _
      rw [he1]
      simp [corruptionError]
  | step s r l2 f2 hp hr ih => exact ih

/-- All states of a run keep the status of the start state. -/
theorem run_status (B : BlockGeom) (st : IterState) (l : List IterState) (f : IterState)
    (h : Run B st l f) : ∀ s2 ∈ l, s2.status = st.status := by
  induction h with
  | stop s f2 hp => intro s2 hs2; exact absurd hs2 (by simp)
  | step s r l2 f2 hp hr ih =>
    intro s2 hs2
    have hr2 : r.status = s.status := by
      have := (parse_progress B s (by rw [hp])).2.2.2
      rwa [hp] at this
    rcases List.mem_cons.mp hs2 with h0 | h0
    · rw [h0, hr2]
    · rw [ih s2 h0, hr2]

/-- Every state of a run sits strictly before the restart array and
strictly before the end of its own entry. -/
theorem run_current (B : BlockGeom) (st : IterState) (l : List IterState) (f : IterState)
    (h : Run B st l f) : ∀ s2 ∈ l, s2.current < B.restarts ∧ s2.current < nextEntryOffset s2 := by
  induction h with
  | stop s f2 hp => intro s2 hs2; exact absurd hs2 (by simp)
  | step s r l2 f2 hp hr ih =>
    intro s2 hs2
    rcases List.mem_cons.mp hs2 with h0 | h0
    · have hpr := parse_progress B s (by rw [hp])
      simp only [hp] at hpr
      subst h0
      omega
    · exact ih s2 h0

/-- `advanceRIAux` keeps the restart index below `num_restarts`. -/
theorem advanceRIAux_lt (B : BlockGeom) (current : Nat) :
    ∀ fuel ri, ri < B.numRestarts → advanceRIAux B current fuel ri < B.numRestarts := by
  intro fuel
  induction fuel with
  | zero => intro ri h; simpa [advanceRIAux] using h
  | succ n ih =>
    intro ri h
    rw [advanceRIAux]
    by_cases hc : ri + 1 < B.numRestarts ∧ getRestartPoint B (ri + 1) < current
    · rw [if_pos hc]; exact ih (ri + 1) hc.1
    · rw [if_neg hc]; exact h

/-- `advanceRI` keeps the restart index below `num_restarts`. -/
theorem advanceRI_lt (B : BlockGeom) (current ri : Nat) (h : ri < B.numRestarts) :
    advanceRI B current ri < B.numRestarts :=
  advanceRIAux_lt B current B.numRestarts ri h

/-- All states of a run keep their restart index below `num_restarts`
when the start state does. -/
theorem run_ri (B : BlockGeom) (st : IterState) (l : List IterState) (f : IterState)
    (h : Run B st l f) :
    st.restart_index < B.numRestarts → ∀ s2 ∈ l, s2.restart_index < B.numRestarts := by
  induction h with
  | stop s f2 hp => intro _ s2 hs2; exact absurd hs2 (by simp)
  | step s r l2 f2 hp hr ih =>
    intro h0 s2 hs2
    have hri : r.restart_index < B.numRestarts := by
      obtain ⟨hlt, q, sh, ns, vl, hd, hk, he⟩ := parse_true_elim B s (by rw [hp])
      simp only [hp] at he
      rw [he]
      exact advanceRI_lt B (nextEntryOffset s) s.restart_index h0
    rcases List.mem_cons.mp hs2 with hm | hm
    · rw [hm]; exact hri
    · exact ih hri s2 hm

/-! ### Context irrelevance of the parse step -/

/-- The parse step reads the state only through its key, the end of its
value, and its status: two states agreeing there step to states with
equal views. -/
theorem parse_ext (B : BlockGeom) (st1 st2 : IterState)
    (hk : st1.key = st2.key) (hn : nextEntryOffset st1 = nextEntryOffset st2)
    (hs : st1.status = st2.status) :
    (parseNextKey B st1).2 = (parseNextKey B st2).2 ∧
    ((parseNextKey B st1).2 = true →
      stView (parseNextKey B st1).1 = stView (parseNextKey B st2).1) ∧
    (parseNextKey B st1).1.status = (parseNextKey B st2).1.status := by
  by_cases hge : B.restarts ≤ nextEntryOffset st1
  · rw [parse_exhaust B st1 hge, parse_exhaust B st2 (hn ▸ hge)]
    exact ⟨rfl, fun h => absurd h (by simp), hs⟩
  · have hge2 : ¬B.restarts ≤ nextEntryOffset st2 := by omega
    cases hd : decodeEntry B.data (nextEntryOffset st1) B.restarts with
    | none =>
      rw [parse_corrupt_none B st1 (by omega) hd,
          parse_corrupt_none B st2 (by omega) (by rw [← hn]; exact hd)]
      exact ⟨rfl, fun h => absurd h (by simp), rfl⟩
    | some rr =>
      obtain ⟨q, sh, ns, vl⟩ := rr
      by_cases hkk : st1.key.length < sh
      · rw [parse_corrupt_shared B st1 q sh ns vl (by omega) hd hkk,
            parse_corrupt_shared B st2 q sh ns vl (by omega) (by rw [← hn]; exact hd)
              (by rw [← hk]; exact hkk)]
        exact ⟨rfl, fun h => absurd h (by simp), rfl⟩
      · rw [parse_success B st1 q sh ns vl (by omega) hd (by omega),
            parse_success B st2 q sh ns vl (by omega) (by rw [← hn]; exact hd)
              (by rw [← hk]; omega)]
        refine ⟨rfl, fun _ => ?_, hs⟩
        simp only [stView, hk, hn, hs]

/-- Runs from two states agreeing on key, end of value, and status pass
through states with equal views and end with equal statuses. -/
theorem run_ext (B : BlockGeom) :
    ∀ (st1 : IterState) (l1 : List IterState) (f1 : IterState), Run B st1 l1 f1 →
    ∀ (st2 : IterState) (l2 : List IterState) (f2 : IterState), Run B st2 l2 f2 →
      st1.key = st2.key → nextEntryOffset st1 = nextEntryOffset st2 →
      st1.status = st2.status →
      l1.map stView = l2.map stView ∧ f1.status = f2.status := by
  intro st1 l1 f1 h1
  induction h1 with
  | stop s f hp =>
    intro st2 l2 f2 h2 hk hn hs
    have hext := parse_ext B s st2 hk hn hs
    cases h2 with
    | stop s2x f2x hp2 =>
      refine ⟨rfl, ?_⟩
      have h3 := hext.2.2
      simp only [hp, hp2] at h3
      exact h3
    | step s2x r2 l2x f2x hp2 hr2 =>
      exfalso
      have h3 := hext.1
      simp only [hp, hp2] at h3
      exact Bool.noConfusion h3
  | step s r l f hp hr ih =>
    intro st2 l2 f2 h2 hk hn hs
    have hext := parse_ext B s st2 hk hn hs
    cases h2 with
    | stop s2x f2x hp2 =>
      exfalso
      have h3 := hext.1
      simp only [hp, hp2] at h3
      exact Bool.noConfusion h3
    | step s2x r2 l2x f2x hp2 hr2 =>
      have hv : stView r = stView r2 := by
        have h3 := hext.2.1 (by rw [hp])
        simpa only [hp, hp2] using h3
      simp only [stView, Prod.mk.injEq] at hv
      have hrec := ih r2 l2x f2 hr2 hv.2.1
        (by simp only [nextEntryOffset, hv.2.2.1, hv.2.2.2.1]) hv.2.2.2.2
      refine ⟨?_, hrec.2⟩
      simp only [List.map_cons, hrec.1, stView]
      rw [hv.1, hv.2.1, hv.2.2.1, hv.2.2.2.1, hv.2.2.2.2]

/-! ### List helpers -/

/-- A `getD` at an index within bounds is a member. -/
theorem getD_mem {α : Type} (d : α) : ∀ (l : List α) (j : Nat), j < l.length → l.getD j d ∈ l := by
  intro l
  induction l with
  | nil => intro j hj; exact absurd hj (by simp)
  | cons a t ih =>
    intro j hj
    cases j with
    | zero => simp
    | succ jj =>
      simp only [List.getD_cons_succ]
      exact List.mem_cons_of_mem a (ih jj (by simpa using hj))

/-- Dropping `j` elements of a list exposes the element at `j`. -/
theorem drop_getD_cons {α : Type} (d : α) :
    ∀ (l : List α) (j : Nat), j < l.length → l.drop j = l.getD j d :: l.drop (j + 1) := by
  intro l
  induction l with
  | nil => intro j hj; exact absurd hj (by simp)
  | cons a t ih =>
    intro j hj
    cases j with
    | zero => simp
    | succ jj =>
      simp only [List.getD_cons_succ, List.drop_succ_cons]
      exact ih jj (by simpa using hj)

/-- `getD` commutes with `map` when the defaults correspond. -/
theorem getD_map {α β : Type} (f : α → β) (d : α) :
    ∀ (l : List α) (j : Nat), j < l.length → (l.map f).getD j (f d) = f (l.getD j d) := by
  intro l
  induction l with
  | nil => intro j hj; exact absurd hj (by simp)
  | cons a t ih =>
    intro j hj
    cases j with
    | zero => simp
    | succ jj =>
      simp only [List.map_cons, List.getD_cons_succ]
      exact ih jj (by simpa using hj)

/-! ### The canonical traversal entry by entry -/

/-- Each state of a run is produced by a parse step from its
predecessor. -/
theorem run_at (B : BlockGeom) (st : IterState) (l : List IterState) (f : IterState)
    (h : Run B st l f) :
    ∀ j < l.length,
      parseNextKey B (if j = 0 then st else l.getD (j - 1) (initIter B)) =
        (l.getD j (initIter B), true) := by
  induction h with
  | stop s f2 hp => intro j hj; exact absurd hj (by simp)
  | step s r l2 f2 hp hr ih =>
    intro j hj
    cases j with
    | zero => simpa using hp
    | succ jj =>
      cases jj with
      | zero =>
        have h0 := ih 0 (by simpa using hj)
        simpa using h0
      | succ j2 =>
        have h0 := ih (j2 + 1) (by simpa using hj)
        simpa using h0

/-- The suffix of a run after any of its states is again a run. -/
theorem run_drop (B : BlockGeom) (st : IterState) (l : List IterState) (f : IterState)
    (h : Run B st l f) :
    ∀ j < l.length, Run B (l.getD j (initIter B)) (l.drop (j + 1)) f := by
  induction h with
  | stop s f2 hp => intro j hj; exact absurd hj (by simp)
  | step s r l2 f2 hp hr ih =>
    intro j hj
    cases j with
    | zero => simpa using hr
    | succ jj => simpa using ih jj (by simpa using hj)

/-- Entry `j` of the canonical traversal is parsed from its
predecessor state. -/
theorem entry_parse (B : BlockGeom) (j : Nat) (hj : j < numEntries B) :
    parseNextKey B (entryPre B j) = (entryState B j, true) := by
  have h := run_at B (startState B) (blockStates B) (blockFinal B) (run_block B) j hj
  cases j with
  | zero => simpa [entryPre, entryState] using h
  | succ jj => simpa [entryPre, entryState] using h

/-- The offset of entry `j` is the end of its predecessor. -/
theorem entry_off_pre (B : BlockGeom) (j : Nat) (hj : j < numEntries B) :
    entryOff B j = nextEntryOffset (entryPre B j) := by
  have h := parse_progress B (entryPre B j) (by rw [entry_parse B j hj])
  have h2 := h.2.1
  rw [entry_parse B j hj] at h2
  exact h2

/-- The run suffix after entry `j` of the canonical traversal. -/
theorem entry_run (B : BlockGeom) (j : Nat) (hj : j < numEntries B) :
    Run B (entryState B j) ((blockStates B).drop (j + 1)) (blockFinal B) :=
  run_drop B (startState B) (blockStates B) (blockFinal B) (run_block B) j hj

/-- Offsets of consecutive entries: the next entry starts at the end of
the previous one. -/
theorem entry_off_succ (B : BlockGeom) (j : Nat) (hj : j + 1 < numEntries B) :
    entryOff B (j + 1) = nextEntryOffset (entryState B j) := by
  have h := entry_off_pre B (j + 1) hj
  simpa [entryPre] using h

/-- Every entry sits strictly before the restart array, and strictly
before its own end. -/
theorem entry_lt_restarts (B : BlockGeom) (j : Nat) (hj : j < numEntries B) :
    entryOff B j < B.restarts ∧ entryOff B j < nextEntryOffset (entryState B j) :=
  run_current B (startState B) (blockStates B) (blockFinal B) (run_block B)
    (entryState B j) (getD_mem (initIter B) (blockStates B) j hj)

/-- Entry offsets are strictly increasing. -/
theorem entry_off_mono (B : BlockGeom) :
    ∀ g < numEntries B, ∀ j < g, entryOff B j < entryOff B g := by
  intro g
  induction g with
  | zero => intro _ j hj; exact absurd hj (by simp)
  | succ gg ih =>
    intro hg j hj
    have hstep : entryOff B gg < entryOff B (gg + 1) := by
      rw [entry_off_succ B gg hg]
      exact (entry_lt_restarts B gg (by omega)).2
    rcases Nat.lt_succ_iff_lt_or_eq.mp hj with h0 | h0
    · exact lt_trans (ih (by omega) j h0) hstep
    · rw [h0]; exact hstep

/-- Every entry state carries status OK (a successful step never sets
an error). -/
theorem entry_status (B : BlockGeom) (j : Nat) (hj : j < numEntries B) :
    (entryState B j).status = Status.ok :=
  run_status B (startState B) (blockStates B) (blockFinal B) (run_block B)
    (entryState B j) (getD_mem (initIter B) (blockStates B) j hj)

/-- The predecessor state of every entry carries status OK. -/
theorem entryPre_status (B : BlockGeom) (j : Nat) (hj : j < numEntries B) :
    (entryPre B j).status = Status.ok := by
  cases j with
  | zero => rfl
  | succ jj =>
    simp only [entryPre]
    rw [if_neg (by omega)]
    exact entry_status B jj (by omega)

/-- Every entry state keeps its restart index below `num_restarts`. -/
theorem entry_ri (B : BlockGeom) (hnr : 0 < B.numRestarts) (j : Nat)
    (hj : j < numEntries B) : (entryState B j).restart_index < B.numRestarts :=
  run_ri B (startState B) (blockStates B) (blockFinal B) (run_block B) hnr
    (entryState B j) (getD_mem (initIter B) (blockStates B) j hj)

/-- With restart point 0 at offset 0, the first entry sits at offset 0. -/
theorem entry_off_zero (B : BlockGeom) (hk : 0 < numEntries B)
    (hrp0 : getRestartPoint B 0 = 0) : entryOff B 0 = 0 := by
  rw [entry_off_pre B 0 hk]
  simp [entryPre, startState, seekToRestartPoint, nextEntryOffset, hrp0]

/-- Entry offsets determine the entry index. -/
theorem entry_off_inj (B : BlockGeom) (j1 j2 : Nat) (h1 : j1 < numEntries B)
    (h2 : j2 < numEntries B) (he : entryOff B j1 = entryOff B j2) : j1 = j2 := by
  rcases Nat.lt_trichotomy j1 j2 with h | h | h
  · exact absurd he (by have := entry_off_mono B j2 h2 j1 h; omega)
  · exact h
  · exact absurd he (by have := entry_off_mono B j1 h1 j2 h; omega)

/-- The key of an entry whose decoded shared length is 0 is its key
delta, independent of the predecessor key. -/
theorem entry_key_zero_shared (B : BlockGeom) (j : Nat) (hj : j < numEntries B)
    (q ns vl : Nat)
    (hdec : decodeEntry B.data (entryOff B j) B.restarts = some (q, 0, ns, vl)) :
    entryKey B j = bytesAt B.data q ns := by
  obtain ⟨hlt2, q2, sh2, ns2, vl2, hd2, hk2, he2⟩ :=
    parse_true_elim B (entryPre B j) (by rw [entry_parse B j hj])
  have hde : decodeEntry B.data (nextEntryOffset (entryPre B j)) B.restarts =
      some (q, 0, ns, vl) := by rw [← entry_off_pre B j hj]; exact hdec
  rw [hde] at hd2
  simp only [Option.some.injEq, Prod.mk.injEq] at hd2
  obtain ⟨e1, e2, e3, e4⟩ := hd2
  simp only [entry_parse B j hj] at he2
  rw [entryKey, he2]
  simp [← e1, ← e2, ← e3]

/-- Parsing from a restart point that addresses entry `j` with shared
length 0 replays exactly the canonical suffix from entry `j`, ending
with a clean status whenever the block's full traversal is clean. -/
theorem restart_suffix (B : BlockGeom) (cmp : Cmp) (hwf : WellFormed B cmp)
    (i : Nat) (hi : i < B.numRestarts)
    (j : Nat) (hj : j < numEntries B) (hoff : getRestartPoint B i = entryOff B j)
    (q ns vl : Nat)
    (hdec : decodeEntry B.data (getRestartPoint B i) B.restarts = some (q, 0, ns, vl))
    (st : IterState) (hst : st.status = Status.ok) :
    ∃ l f, Run B (seekToRestartPoint B st i) l f ∧
      l.map stView = ((blockStates B).drop j).map stView ∧ f.status = Status.ok := by
  have hneo0 : nextEntryOffset (seekToRestartPoint B st i) = getRestartPoint B i := by
    simp [seekToRestartPoint, nextEntryOffset]
  have hlt : nextEntryOffset (seekToRestartPoint B st i) < B.restarts := by
    rw [hneo0, hoff]; exact (entry_lt_restarts B j hj).1
  have hd0 : decodeEntry B.data (nextEntryOffset (seekToRestartPoint B st i)) B.restarts =
      some (q, 0, ns, vl) := by rw [hneo0]; exact hdec
  have hp1 := parse_success B (seekToRestartPoint B st i) q 0 ns vl hlt hd0 (by omega)
  obtain ⟨hlt2, q2, sh2, ns2, vl2, hd2, hk2, he2⟩ :=
    parse_true_elim B (entryPre B j) (by rw [entry_parse B j hj])
  have hde : decodeEntry B.data (nextEntryOffset (entryPre B j)) B.restarts =
      some (q, 0, ns, vl) := by rw [← entry_off_pre B j hj, ← hoff]; exact hdec
  rw [hde] at hd2
  simp only [Option.some.injEq, Prod.mk.injEq] at hd2
  obtain ⟨e1, e2, e3, e4⟩ := hd2
  simp only [entry_parse B j hj] at he2
  obtain ⟨l, f, hrun⟩ := run_exists B (seekToRestartPoint B st i)
  cases hrun with
  | stop _ _ hp0 => rw [hp1] at hp0; exact absurd (congrArg Prod.snd hp0) (by simp)
  | step _ r l2 f2 hp0 hr0 =>
    have hre : r = { seekToRestartPoint B st i with
        current := nextEntryOffset (seekToRestartPoint B st i),
        key := (seekToRestartPoint B st i).key.take 0 ++ bytesAt B.data q ns,
        valueOff := q + ns, valueLen := vl,
        restart_index := advanceRI B (nextEntryOffset (seekToRestartPoint B st i))
          (seekToRestartPoint B st i).restart_index } := by
      have h9 := hp0
      rw [hp1] at h9
      exact (congrArg Prod.fst h9).symm
    have hkey : r.key = (entryState B j).key := by
      rw [hre, he2]
      simp [seekToRestartPoint, ← e1, ← e2, ← e3]
    have hneo : nextEntryOffset r = nextEntryOffset (entryState B j) := by
      rw [hre, he2]
      simp [nextEntryOffset, ← e1, ← e3, ← e4]
    have hstat : r.status = (entryState B j).status := by
      rw [hre, he2]
      show (seekToRestartPoint B st i).status = (entryPre B j).status
      rw [entryPre_status B j hj]
      show st.status = Status.ok
      exact hst
    obtain ⟨hmap, hfstat⟩ := run_ext B r l2 f hr0 (entryState B j)
      ((blockStates B).drop (j + 1)) (blockFinal B) (entry_run B j hj) hkey hneo hstat
    refine ⟨r :: l2, f, Run.step _ _ _ _ hp0 hr0, ?_, ?_⟩
    · rw [drop_getD_cons (initIter B) (blockStates B) j hj]
      simp only [List.map_cons, hmap]
      have hview : stView r = stView (entryState B j) := by
        simp only [stView, Prod.mk.injEq]
        refine ⟨?_, hkey, ?_, ?_, hstat⟩
        · rw [hre, he2]
          simp only []
          rw [← entry_off_pre B j hj, hneo0, hoff]
        · rw [hre, he2]; simp [← e1, ← e3]
        · rw [hre, he2]; simp [← e4]
      rw [hview]
      rfl
    · rw [hfstat]
      exact hwf.clean

/-! ### The replay and linear-search loops against a run -/

/-- Unfolding equation of `scanToAux` at positive fuel. -/
theorem scanToAux_succ (B : BlockGeom) (bound fuel : Nat) (st : IterState) :
    scanToAux B bound (fuel + 1) st =
      if (parseNextKey B st).2 = true ∧ nextEntryOffset (parseNextKey B st).1 < bound then
        scanToAux B bound fuel (parseNextKey B st).1
      else (parseNextKey B st).1 := rfl

/-- When every parsed entry ends before `bound`, the replay loop runs
to the final state of the run. -/
theorem scanToAux_exhaust (B : BlockGeom) (bound : Nat) (st : IterState)
    (l : List IterState) (f : IterState) (h : Run B st l f) :
    ∀ fuel, l.length < fuel → (∀ s2 ∈ l, nextEntryOffset s2 < bound) →
      scanToAux B bound fuel st = f := by
  induction h with
  | stop s f2 hp =>
    intro fuel hf _
    cases fuel with
    | zero => exact absurd hf (by simp)
    | succ n =>
      rw [scanToAux_succ]
      simp [hp]
  | step s r l2 f2 hp hr ih =>
    intro fuel hf hbnd
    cases fuel with
    | zero => exact absurd hf (by simp)
    | succ n =>
      have hr2 : nextEntryOffset r < bound := hbnd r (List.mem_cons_self r l2)
      rw [scanToAux_succ]
      simp only [hp]
      rw [if_pos ⟨trivial, hr2⟩]
      exact ih n (by simpa using hf) (fun s2 hs2 => hbnd s2 (List.mem_cons_of_mem r hs2))

/-- The replay loop stops at the first parsed entry whose end reaches
`bound`. -/
theorem scanToAux_hit (B : BlockGeom) (bound : Nat) (st : IterState)
    (l : List IterState) (f : IterState) (h : Run B st l f) :
    ∀ fuel m, l.length < fuel → m < l.length →
      (∀ j2 < m, nextEntryOffset (l.getD j2 (initIter B)) < bound) →
      bound ≤ nextEntryOffset (l.getD m (initIter B)) →
      scanToAux B bound fuel st = l.getD m (initIter B) := by
  induction h with
  | stop s f2 hp => intro fuel m _ hm _ _; exact absurd hm (by simp)
  | step s r l2 f2 hp hr ih =>
    intro fuel m hf hm hlt hge
    cases fuel with
    | zero => exact absurd hf (by simp)
    | succ n =>
      cases m with
      | zero =>
        rw [scanToAux_succ]
        simp only [hp]
        rw [if_neg (by simp only [List.getD_cons_zero] at hge; simp; omega)]
        simp
      | succ mm =>
        have h0 : nextEntryOffset r < bound := by
          have := hlt 0 (by omega)
          simpa using this
        rw [scanToAux_succ]
        simp only [hp]
        rw [if_pos ⟨trivial, h0⟩]
        have hrec := ih n mm (by simpa using hf) (by simpa using hm)
          (fun j2 hj2 => by have := hlt (j2 + 1) (by omega); simpa using this)
          (by simpa using hge)
        simpa using hrec

/-- Unfolding equation of `seekLinearAux` at positive fuel. -/
theorem seekLinearAux_succ (B : BlockGeom) (cmp : Cmp) (target : List Nat)
    (fuel : Nat) (st : IterState) :
    seekLinearAux B cmp target (fuel + 1) st =
      if (parseNextKey B st).2 then
        if 0 ≤ cmp (parseNextKey B st).1.key target then (parseNextKey B st).1
        else seekLinearAux B cmp target fuel (parseNextKey B st).1
      else (parseNextKey B st).1 := rfl

/-- When every parsed key compares below `target`, the linear search
runs to the final state of the run. -/
theorem seekLinearAux_exhaust (B : BlockGeom) (cmp : Cmp) (target : List Nat)
    (st : IterState) (l : List IterState) (f : IterState) (h : Run B st l f) :
    ∀ fuel, l.length < fuel → (∀ s2 ∈ l, cmp s2.key target < 0) →
      seekLinearAux B cmp target fuel st = f := by
  induction h with
  | stop s f2 hp =>
    intro fuel hf _
    cases fuel with
    | zero => exact absurd hf (by simp)
    | succ n =>
      rw [seekLinearAux_succ]
      simp [hp]
  | step s r l2 f2 hp hr ih =>
    intro fuel hf hbnd
    cases fuel with
    | zero => exact absurd hf (by simp)
    | succ n =>
      have hr2 : cmp r.key target < 0 := hbnd r (List.mem_cons_self r l2)
      rw [seekLinearAux_succ]
      simp only [hp]
      rw [if_pos trivial, if_neg (by omega)]
      exact ih n (by simpa using hf) (fun s2 hs2 => hbnd s2 (List.mem_cons_of_mem r hs2))

/-- The linear search stops at the first parsed entry whose key
compares at or above `target`. -/
theorem seekLinearAux_hit (B : BlockGeom) (cmp : Cmp) (target : List Nat)
    (st : IterState) (l : List IterState) (f : IterState) (h : Run B st l f) :
    ∀ fuel m, l.length < fuel → m < l.length →
      (∀ j2 < m, cmp ((l.getD j2 (initIter B)).key) target < 0) →
      0 ≤ cmp ((l.getD m (initIter B)).key) target →
      seekLinearAux B cmp target fuel st = l.getD m (initIter B) := by
  induction h with
  | stop s f2 hp => intro fuel m _ hm _ _; exact absurd hm (by simp)
  | step s r l2 f2 hp hr ih =>
    intro fuel m hf hm hlt hge
    cases fuel with
    | zero => exact absurd hf (by simp)
    | succ n =>
      cases m with
      | zero =>
        rw [seekLinearAux_succ]
        simp only [hp]
        rw [if_pos trivial, if_pos (by simpa using hge)]
        simp
      | succ mm =>
        have h0 : cmp r.key target < 0 := by
          have := hlt 0 (by omega)
          simpa using this
        rw [seekLinearAux_succ]
        simp only [hp]
        rw [if_pos trivial, if_neg (by omega)]
        have hrec := ih n mm (by simpa using hf) (by simpa using hm)
          (fun j2 hj2 => by have := hlt (j2 + 1) (by omega); simpa using this)
          (by simpa using hge)
        simpa using hrec

/-! ### The backward scan of Prev -/

/-- When every restart point at or below `ri` is at or past `original`,
the backward scan finds nothing. -/
theorem prevScanAux_none (B : BlockGeom) (original : Nat) :
    ∀ fuel ri, ri < fuel → (∀ i2 ≤ ri, original ≤ getRestartPoint B i2) →
      prevScanAux B original fuel ri = none := by
  intro fuel
  induction fuel with
  | zero => intro ri h _; exact absurd h (by simp)
  | succ n ih =>
    intro ri h hall
    rw [prevScanAux]
    rw [if_pos (hall ri (by omega))]
    by_cases h0 : ri = 0
    · rw [if_pos h0]
    · rw [if_neg h0]
      exact ih (ri - 1) (by omega) (fun i2 hi2 => hall i2 (by omega))

/-- The backward scan returns the greatest index at or below `ri` whose
restart point is before `original`. -/
theorem prevScanAux_found (B : BlockGeom) (original : Nat) :
    ∀ fuel ri i0, ri < fuel → i0 ≤ ri → getRestartPoint B i0 < original →
      (∀ i2, i0 < i2 → i2 ≤ ri → original ≤ getRestartPoint B i2) →
      prevScanAux B original fuel ri = some i0 := by
  intro fuel
  induction fuel with
  | zero => intro ri i0 h _ _ _; exact absurd h (by simp)
  | succ n ih =>
    intro ri i0 h hle hlt hgr
    rw [prevScanAux]
    by_cases hri : original ≤ getRestartPoint B ri
    · rw [if_pos hri]
      have hne : i0 ≠ ri := by intro he; rw [he] at hlt; omega
      rw [if_neg (by omega)]
      exact ih (ri - 1) i0 (by omega) (by omega) hlt (fun i2 h1 h2 => hgr i2 h1 (by omega))
    · rw [if_neg hri]
      have he : i0 = ri := by
        by_contra hne
        have := hgr ri (by omega) (by omega)
        omega
      rw [he]

/-! ### The binary search of Seek -/

/-- Unfolding equation of `seekBinaryAux` at positive fuel. -/
theorem seekBinaryAux_succ (B : BlockGeom) (cmp : Cmp) (target : List Nat)
    (fuel left right : Nat) :
    seekBinaryAux B cmp target (fuel + 1) left right =
      if left < right then
        match decodeEntry B.data (getRestartPoint B ((left + right + 1) / 2)) B.restarts with
        | none => (none, [((left + right + 1) / 2, none)])
        | some (q, shared, nonShared, _) =>
          if shared ≠ 0 then (none, [((left + right + 1) / 2, none)])
          else
            let midKey := bytesAt B.data q nonShared
            let r :=
              if cmp midKey target < 0 then
                seekBinaryAux B cmp target fuel ((left + right + 1) / 2) right
              else seekBinaryAux B cmp target fuel left ((left + right + 1) / 2 - 1)
            (r.1, ((left + right + 1) / 2, some midKey) :: r.2)
      else (some left, []) := rfl

/-- On a well-formed block the binary search never aborts, stays within
the window, and returns a lower bound satisfying the invariant. -/
theorem seekBinaryAux_inv (B : BlockGeom) (cmp : Cmp) (target : List Nat)
    (hwf : WellFormed B cmp) :
    ∀ fuel left right, right - left < fuel → left ≤ right →
      right < B.numRestarts → SearchLB B cmp target left →
      ∃ L, (seekBinaryAux B cmp target fuel left right).1 = some L ∧
        SearchLB B cmp target L ∧ L ≤ right := by
  intro fuel
  induction fuel with
  | zero => intro left right h _ _ _; exact absurd h (by simp)
  | succ n ih =>
    intro left right hfuel hlr hr hlb
    rw [seekBinaryAux_succ]
    by_cases hlt : left < right
    · rw [if_pos hlt]
      have hmid : left < (left + right + 1) / 2 ∧ (left + right + 1) / 2 ≤ right := by omega
      obtain ⟨j, hj, hoff, q, ns, vl, hdec⟩ :=
        hwf.boundary ((left + right + 1) / 2) (by omega)
      have hkey : entryKey B j = bytesAt B.data q ns :=
        entry_key_zero_shared B j hj q ns vl (by rw [hoff]; exact hdec)
      simp only [hdec]
      rw [if_neg (by simp)]
      by_cases hcmp : cmp (bytesAt B.data q ns) target < 0
      · rw [if_pos hcmp]
        have hrec := ih ((left + right + 1) / 2) right (by omega) (by omega) hr
          (Or.inr ⟨j, hj, hoff.symm, by rw [hkey]; exact hcmp⟩)
        obtain ⟨L, hL, hinv, hLr⟩ := hrec
        exact ⟨L, hL, hinv, hLr⟩
      · rw [if_neg hcmp]
        have hrec := ih left ((left + right + 1) / 2 - 1) (by omega) (by omega) (by omega) hlb
        obtain ⟨L, hL, hinv, hLr⟩ := hrec
        exact ⟨L, hL, hinv, by omega⟩
    · rw [if_neg hlt]
      exact ⟨left, rfl, hlb, hlr⟩

/-! ### The first entry at or above a target -/

/-- `findGE` never exceeds the list length. -/
theorem findGE_le_length (cmp : Cmp) (target : List Nat) :
    ∀ l : List IterState, findGE cmp target l ≤ l.length := by
  intro l
  induction l with
  | nil => simp [findGE]
  | cons a t ih =>
    rw [findGE]
    by_cases h : 0 ≤ cmp a.key target
    · rw [if_pos h]; simp
    · rw [if_neg h]; simpa using ih

/-- Entries before the `findGE` index compare below the target. -/
theorem findGE_before (cmp : Cmp) (target : List Nat) (d : IterState) :
    ∀ (l : List IterState) (j : Nat), j < findGE cmp target l →
      cmp ((l.getD j d).key) target < 0 := by
  intro l
  induction l with
  | nil => intro j hj; rw [findGE] at hj; exact absurd hj (by simp)
  | cons a t ih =>
    intro j hj
    rw [findGE] at hj
    by_cases h : 0 ≤ cmp a.key target
    · rw [if_pos h] at hj; exact absurd hj (by simp)
    · rw [if_neg h] at hj
      cases j with
      | zero => simpa using (by omega : cmp a.key target < 0)
      | succ jj =>
        simp only [List.getD_cons_succ]
        exact ih jj (by omega)

/-- The entry at the `findGE` index, when it exists, compares at or
above the target. -/
theorem findGE_at (cmp : Cmp) (target : List Nat) (d : IterState) :
    ∀ l : List IterState, findGE cmp target l < l.length →
      0 ≤ cmp ((l.getD (findGE cmp target l) d).key) target := by
  intro l
  induction l with
  | nil => intro h; exact absurd h (by simp [findGE])
  | cons a t ih =>
    intro h
    rw [findGE] at h ⊢
    by_cases h0 : 0 ≤ cmp a.key target
    · rw [if_pos h0] at h ⊢; simpa using h0
    · rw [if_neg h0] at h ⊢
      simp only [List.getD_cons_succ]
      exact ih (by simpa using h)

/-! ### Claim C9: the fresh cursor -/

/-- C9: a freshly constructed real cursor starts Invalid — `current`
equals the restart-array offset and `restart_index` equals
`num_restarts` — with an OK status, `valid()` false, and no entry
exposed (empty key and value). -/
theorem fresh_cursor_starts_invalid (B : BlockGeom) :
    (initIter B).current = B.restarts ∧
    (initIter B).restart_index = B.numRestarts ∧
    (initIter B).status = Status.ok ∧
    IterValid B (initIter B) = false ∧
    (initIter B).key = [] ∧
    valueBytes B (initIter B) = [] := by
  refine ⟨rfl, rfl, rfl, ?_, rfl, rfl⟩
  simp [IterValid, initIter]

/-! ### Claim C4: block construction -/

/-- C4: construction marks the block invalid (`size = 0`) exactly when
the buffer is shorter than 4 bytes or the trailing little-endian
restart count exceeds `(length - 4) / 4`; otherwise it keeps the size
and sets `restart_offset = size - 4 * (num_restarts + 1)`, so that
every valid block satisfies `size ≥ 4` and
`restart_offset + 4 * (num_restarts + 1) = size`. -/
theorem block_construction_valid_iff (data : List Nat) :
    ((mkBlock data).size = 0 ↔
      data.length < 4 ∨ (data.length - 4) / 4 < decodeFixed32 data (data.length - 4)) ∧
    ((mkBlock data).size ≠ 0 →
      (mkBlock data).size = data.length ∧ 4 ≤ (mkBlock data).size ∧
      (mkBlock data).restart_offset =
        (mkBlock data).size - 4 * (decodeFixed32 data (data.length - 4) + 1) ∧
      (mkBlock data).restart_offset + 4 * (decodeFixed32 data (data.length - 4) + 1) =
        (mkBlock data).size) := by
  unfold mkBlock
  by_cases h4 : data.length < 4
  · rw [if_pos h4]
    exact ⟨⟨fun _ => Or.inl h4, fun _ => rfl⟩, fun h => absurd rfl h⟩
  · rw [if_neg h4]
    by_cases hnr : (data.length - 4) / 4 < decodeFixed32 data (data.length - 4)
    · rw [if_pos hnr]
      exact ⟨⟨fun _ => Or.inr hnr, fun _ => rfl⟩, fun h => absurd rfl h⟩
    · rw [if_neg hnr]
      constructor
      · constructor
        · intro h
          have h2 : data.length = 0 := h
          omega
        · intro h
          show data.length = 0
          rcases h with h | h <;> omega
      · intro _
        refine ⟨rfl, ?_, ?_, ?_⟩
        · show 4 ≤ data.length
          omega
        · show data.length - (1 + decodeFixed32 data (data.length - 4)) * 4 =
            data.length - 4 * (decodeFixed32 data (data.length - 4) + 1)
          omega
        · show data.length - (1 + decodeFixed32 data (data.length - 4)) * 4 +
            4 * (decodeFixed32 data (data.length - 4) + 1) = data.length
          omega

/-- Witness for C4 at the concrete block `wData` (valid branch) and the
3-byte buffer (invalid branch). -/
theorem block_construction_valid_iff_witness :
    ((mkBlock wData).size ≠ 0 ∧
      (mkBlock wData).size = wData.length ∧ 4 ≤ (mkBlock wData).size ∧
      (mkBlock wData).restart_offset =
        (mkBlock wData).size - 4 * (decodeFixed32 wData (wData.length - 4) + 1) ∧
      (mkBlock wData).restart_offset + 4 * (decodeFixed32 wData (wData.length - 4) + 1) =
        (mkBlock wData).size) ∧
    (mkBlock [0, 0, 0]).size = 0 :=
  ⟨⟨by decide, (block_construction_valid_iff wData).2 (by decide)⟩,
   (block_construction_valid_iff [0, 0, 0]).1.mpr (Or.inl (by decide))⟩

/-! ### Claim C2: ParseNextKey -/

/-- C2: `ParseNextKey` with the cursor set past the previous entry's
value: at or past the restart array it transitions to Invalid
(`current = restart_offset`, `restart_index = num_restarts`) with the
status unchanged and returns failure; on a decode failure or a shared
length exceeding the reconstructed key it transitions to Invalid, sets
the sticky status "bad entry in block", clears key and value, and
returns failure; otherwise it sets the key to the first `shared` bytes
of the previous key followed by the `non_shared`-byte delta, sets the
value to the `value_length` bytes immediately following, and returns
success. -/
theorem parse_next_key_cases (B : BlockGeom) (st : IterState) :
    (B.restarts ≤ nextEntryOffset st →
      parseNextKey B st =
        ({ st with current := B.restarts, restart_index := B.numRestarts }, false) ∧
      (parseNextKey B st).1.status = st.status ∧
      IterValid B (parseNextKey B st).1 = false) ∧
    (nextEntryOffset st < B.restarts →
      (decodeEntry B.data (nextEntryOffset st) B.restarts = none →
        parseNextKey B st = (corruptionError B st, false) ∧
        (parseNextKey B st).1.status = Status.corruption "bad entry in block" ∧
        (parseNextKey B st).1.key = [] ∧
        valueBytes B (parseNextKey B st).1 = [] ∧
        IterValid B (parseNextKey B st).1 = false) ∧
      (∀ q sh ns vl,
        decodeEntry B.data (nextEntryOffset st) B.restarts = some (q, sh, ns, vl) →
        (st.key.length < sh →
          parseNextKey B st = (corruptionError B st, false) ∧
          (parseNextKey B st).1.status = Status.corruption "bad entry in block" ∧
          (parseNextKey B st).1.key = [] ∧
          valueBytes B (parseNextKey B st).1 = [] ∧
          IterValid B (parseNextKey B st).1 = false) ∧
        (sh ≤ st.key.length →
          (parseNextKey B st).2 = true ∧
          (parseNextKey B st).1.key = st.key.take sh ++ bytesAt B.data q ns ∧
          valueBytes B (parseNextKey B st).1 = bytesAt B.data (q + ns) vl ∧
          (parseNextKey B st).1.current = nextEntryOffset st ∧
          (parseNextKey B st).1.status = st.status))) := by
  constructor
  · intro hge
    rw [parse_exhaust B st hge]
    refine ⟨rfl, rfl, ?_⟩
    simp [IterValid]
  · intro hlt
    constructor
    · intro hd
      rw [parse_corrupt_none B st hlt hd]
      refine ⟨rfl, rfl, rfl, ?_, ?_⟩
      · simp [valueBytes, corruptionError, bytesAt]
      · simp [IterValid, corruptionError]
    · intro q sh ns vl hd
      constructor
      · intro hk
        rw [parse_corrupt_shared B st q sh ns vl hlt hd hk]
        refine ⟨rfl, rfl, rfl, ?_, ?_⟩
        · simp [valueBytes, corruptionError, bytesAt]
        · simp [IterValid, corruptionError]
      · intro hk
        rw [parse_success B st q sh ns vl hlt hd (by omega)]
        exact ⟨rfl, rfl, rfl, rfl, rfl⟩

/-- Witness for C2 at the first entry of the concrete block `wData`. -/
theorem parse_next_key_cases_witness :
    nextEntryOffset (startState wGeom) < wGeom.restarts ∧
    decodeEntry wGeom.data (nextEntryOffset (startState wGeom)) wGeom.restarts =
      some (3, 0, 1, 1) ∧
    0 ≤ (startState wGeom).key.length ∧
    ((parseNextKey wGeom (startState wGeom)).2 = true ∧
      (parseNextKey wGeom (startState wGeom)).1.key =
        (startState wGeom).key.take 0 ++ bytesAt wGeom.data 3 1 ∧
      valueBytes wGeom (parseNextKey wGeom (startState wGeom)).1 =
        bytesAt wGeom.data (3 + 1) 1 ∧
      (parseNextKey wGeom (startState wGeom)).1.current =
        nextEntryOffset (startState wGeom) ∧
      (parseNextKey wGeom (startState wGeom)).1.status = (startState wGeom).status) :=
  ⟨by decide, by decide, by decide,
   (((parse_next_key_cases wGeom (startState wGeom)).2 (by decide)).2 3 0 1 1
     (by decide)).2 (by decide)⟩

/-! ### Claim C10: Prev on the first entry -/

/-- C10: when every restart point at or below the cursor's restart
index lies at or past the current entry's offset, `Prev` walks the
scan down to index 0, finds no eligible restart point, and transitions
to Invalid without touching the status — clean reverse exhaustion is
distinguishable from corruption via `status()`. -/
theorem prev_first_entry_clean_invalid (B : BlockGeom) (st : IterState)
    (h : ∀ i ≤ st.restart_index, st.current ≤ getRestartPoint B i) :
    IterPrev B st = { st with current := B.restarts, restart_index := B.numRestarts } ∧
    IterValid B (IterPrev B st) = false ∧
    (IterPrev B st).status = st.status := by
  have hn : prevScan B st.current st.restart_index = none :=
    prevScanAux_none B st.current (st.restart_index + 1) st.restart_index (by omega)
      (fun i2 hi2 => h i2 hi2)
  have he : IterPrev B st =
      { st with current := B.restarts, restart_index := B.numRestarts } := by
    simp only [IterPrev, hn]
  refine ⟨he, ?_, ?_⟩
  · rw [he]; simp [IterValid]
  · rw [he]

/-- Witness for C10 on the first entry of the concrete block `wData`. -/
theorem prev_first_entry_clean_invalid_witness :
    (∀ i ≤ (IterSeekToFirst wGeom (initIter wGeom)).restart_index,
      (IterSeekToFirst wGeom (initIter wGeom)).current ≤ getRestartPoint wGeom i) ∧
    IterPrev wGeom (IterSeekToFirst wGeom (initIter wGeom)) =
      { IterSeekToFirst wGeom (initIter wGeom) with
          current := wGeom.restarts, restart_index := wGeom.numRestarts } ∧
    IterValid wGeom (IterPrev wGeom (IterSeekToFirst wGeom (initIter wGeom))) = false ∧
    (IterPrev wGeom (IterSeekToFirst wGeom (initIter wGeom))).status =
      (IterSeekToFirst wGeom (initIter wGeom)).status :=
  ⟨by decide, prev_first_entry_clean_invalid wGeom (IterSeekToFirst wGeom (initIter wGeom))
    (by decide)⟩

/-! ### Claim C6: the iterator factory -/

/-- The error iterator absorbs every navigation operation. -/
theorem applyOp_error (o : NavOp) (s : Status) :
    applyOp o (BlockIter.errorIter s) = BlockIter.errorIter s := by
  cases o <;> rfl

/-- The empty iterator absorbs every navigation operation. -/
theorem applyOp_empty (o : NavOp) :
    applyOp o BlockIter.emptyIter = BlockIter.emptyIter := by
  cases o <;> rfl

/-- Sequences of navigation operations leave the error iterator alone. -/
theorem applyOps_error (ops : List NavOp) (s : Status) :
    applyOps ops (BlockIter.errorIter s) = BlockIter.errorIter s := by
  induction ops with
  | nil => rfl
  | cons o rest ih =>
    show applyOps rest (applyOp o (BlockIter.errorIter s)) = BlockIter.errorIter s
    rw [applyOp_error]
    exact ih

/-- Sequences of navigation operations leave the empty iterator alone. -/
theorem applyOps_empty (ops : List NavOp) :
    applyOps ops BlockIter.emptyIter = BlockIter.emptyIter := by
  induction ops with
  | nil => rfl
  | cons o rest ih =>
    show applyOps rest (applyOp o BlockIter.emptyIter) = BlockIter.emptyIter
    rw [applyOp_empty]
    exact ih

/-- C6: `NewIterator` returns, for an invalid block (`size < 4`), an
iterator that is never valid and always reports the corruption status
"bad block contents"; for a valid block with zero restart count, an
iterator that is never valid and carries no error; and otherwise a
fresh real cursor over `(data, restart_offset, num_restarts)` bound to
the given comparator. -/
theorem new_iterator_variants (b : BlockC) (cmp : Cmp) :
    (b.size < 4 →
      NewIterator b cmp = BlockIter.errorIter (Status.corruption "bad block contents") ∧
      ∀ ops, (applyOps ops (NewIterator b cmp)).validB = false ∧
        (applyOps ops (NewIterator b cmp)).statusB =
          Status.corruption "bad block contents") ∧
    (4 ≤ b.size → numRestartsOf b = 0 →
      NewIterator b cmp = BlockIter.emptyIter ∧
      ∀ ops, (applyOps ops (NewIterator b cmp)).validB = false ∧
        (applyOps ops (NewIterator b cmp)).statusB = Status.ok) ∧
    (4 ≤ b.size → numRestartsOf b ≠ 0 →
      NewIterator b cmp = BlockIter.cursor cmp
        { data := b.data, restarts := b.restart_offset, numRestarts := numRestartsOf b }
        (initIter { data := b.data, restarts := b.restart_offset,
                    numRestarts := numRestartsOf b })) := by
  refine ⟨?_, ?_, ?_⟩
  · intro h4
    have he : NewIterator b cmp =
        BlockIter.errorIter (Status.corruption "bad block contents") := by
      rw [NewIterator, if_pos h4]
    refine ⟨he, fun ops => ?_⟩
    rw [he, applyOps_error]
    exact ⟨rfl, rfl⟩
  · intro h4 h0
    have he : NewIterator b cmp = BlockIter.emptyIter := by
      rw [NewIterator, if_neg (by omega), if_pos h0]
    refine ⟨he, fun ops => ?_⟩
    rw [he, applyOps_empty]
    exact ⟨rfl, rfl⟩
  · intro h4 h0
    rw [NewIterator, if_neg (by omega), if_neg h0]

/-- Witness for C6: a 3-byte buffer (error branch), a 4-byte zero
buffer (empty branch), and the concrete block `wData` (cursor branch),
each under one navigation operation. -/
theorem new_iterator_variants_witness :
    ((mkBlock [0, 0, 0]).size < 4 ∧
      NewIterator (mkBlock [0, 0, 0]) byteCompare =
        BlockIter.errorIter (Status.corruption "bad block contents") ∧
      (applyOps [NavOp.seekToFirst] (NewIterator (mkBlock [0, 0, 0]) byteCompare)).validB
        = false ∧
      (applyOps [NavOp.seekToFirst] (NewIterator (mkBlock [0, 0, 0]) byteCompare)).statusB
        = Status.corruption "bad block contents") ∧
    (4 ≤ (mkBlock [0, 0, 0, 0]).size ∧ numRestartsOf (mkBlock [0, 0, 0, 0]) = 0 ∧
      NewIterator (mkBlock [0, 0, 0, 0]) byteCompare = BlockIter.emptyIter ∧
      (applyOps [NavOp.next] (NewIterator (mkBlock [0, 0, 0, 0]) byteCompare)).validB
        = false ∧
      (applyOps [NavOp.next] (NewIterator (mkBlock [0, 0, 0, 0]) byteCompare)).statusB
        = Status.ok) ∧
    (4 ≤ (mkBlock wData).size ∧ numRestartsOf (mkBlock wData) ≠ 0 ∧
      NewIterator (mkBlock wData) byteCompare = BlockIter.cursor byteCompare
        { data := (mkBlock wData).data, restarts := (mkBlock wData).restart_offset,
          numRestarts := numRestartsOf (mkBlock wData) }
        (initIter { data := (mkBlock wData).data,
                    restarts := (mkBlock wData).restart_offset,
                    numRestarts := numRestartsOf (mkBlock wData) })) := by
  refine ⟨⟨by decide, ?_⟩, ⟨by decide, by decide, ?_⟩, ⟨by decide, by decide, ?_⟩⟩
  · have h := (new_iterator_variants (mkBlock [0, 0, 0]) byteCompare).1 (by decide)
    exact ⟨h.1, (h.2 [NavOp.seekToFirst]).1, (h.2 [NavOp.seekToFirst]).2⟩
  · have h := ((new_iterator_variants (mkBlock [0, 0, 0, 0]) byteCompare).2.1
      (by decide) (by decide))
    exact ⟨h.1, (h.2 [NavOp.next]).1, (h.2 [NavOp.next]).2⟩
  · exact (new_iterator_variants (mkBlock wData) byteCompare).2.2 (by decide) (by decide)

/-! ### Claim C8: corrupt restart probe aborts Seek -/

/-- C8: during `Seek`'s binary search, a midpoint restart entry that
fails to decode or decodes with nonzero shared length aborts the
search at once: the probe trace consists of that single failed probe
(so no further restart probes and no comparator calls are made), and
`Seek` transitions the iterator to Invalid with the corruption status
set. -/
theorem seek_binary_corrupt_probe_aborts (B : BlockGeom) (cmp : Cmp) (st : IterState)
    (target : List Nat) (left right : Nat) (hlr : left < right)
    (hbad : decodeEntry B.data (getRestartPoint B ((left + right + 1) / 2)) B.restarts
        = none ∨
      ∃ q sh ns vl, sh ≠ 0 ∧
        decodeEntry B.data (getRestartPoint B ((left + right + 1) / 2)) B.restarts =
          some (q, sh, ns, vl)) :
    seekBinary B cmp target left right = (none, [((left + right + 1) / 2, none)]) ∧
    (left = 0 → right = B.numRestarts - 1 →
      IterSeek B cmp st target = corruptionError B st ∧
      IterValid B (IterSeek B cmp st target) = false ∧
      (IterSeek B cmp st target).status = Status.corruption "bad entry in block") := by
  have hmain : seekBinary B cmp target left right =
      (none, [((left + right + 1) / 2, none)]) := by
    rw [seekBinary, seekBinaryAux_succ, if_pos hlr]
    rcases hbad with hd | ⟨q, sh, ns, vl, hsh, hd⟩
    · rw [hd]
    · simp only [hd]
      rw [if_pos hsh]
  refine ⟨hmain, fun hl hr => ?_⟩
  have he : IterSeek B cmp st target = corruptionError B st := by
    rw [IterSeek]
    rw [hl, hr] at hmain
    rw [hmain]
  refine ⟨he, ?_, ?_⟩
  · rw [he]; simp [IterValid, corruptionError]
  · rw [he]; rfl

/-- Witness for C8 on the concrete block `c8Data`, whose second restart
point addresses an entry with shared length 1. -/
theorem seek_binary_corrupt_probe_aborts_witness :
    0 < 1 ∧
    (∃ q sh ns vl, sh ≠ 0 ∧
      decodeEntry c8Geom.data (getRestartPoint c8Geom ((0 + 1 + 1) / 2)) c8Geom.restarts =
        some (q, sh, ns, vl)) ∧
    seekBinary c8Geom byteCompare [97] 0 1 = (none, [((0 + 1 + 1) / 2, none)]) ∧
    IterSeek c8Geom byteCompare (initIter c8Geom) [97] =
      corruptionError c8Geom (initIter c8Geom) ∧
    IterValid c8Geom (IterSeek c8Geom byteCompare (initIter c8Geom) [97]) = false ∧
    (IterSeek c8Geom byteCompare (initIter c8Geom) [97]).status =
      Status.corruption "bad entry in block" := by
  have hbad : decodeEntry c8Geom.data (getRestartPoint c8Geom ((0 + 1 + 1) / 2))
        c8Geom.restarts = none ∨
      ∃ q sh ns vl, sh ≠ 0 ∧
        decodeEntry c8Geom.data (getRestartPoint c8Geom ((0 + 1 + 1) / 2)) c8Geom.restarts =
          some (q, sh, ns, vl) :=
    Or.inr ⟨8, 1, 1, 1, by decide, by decide⟩
  have h := seek_binary_corrupt_probe_aborts c8Geom byteCompare (initIter c8Geom) [97]
    0 1 (by decide) hbad
  have h2 := h.2 rfl (by decide)
  exact ⟨by decide, ⟨8, 1, 1, 1, by decide, by decide⟩, h.1, h2.1, h2.2.1, h2.2.2⟩

/-! ### Claim C7: DecodeEntry -/

/-- Bytes read through `byteAt` are below 256. -/
theorem byteAt_lt (data : List Nat) (i : Nat) : byteAt data i < 256 :=
  Nat.mod_lt _ (by omega)

/-- Bit 7 of a byte at or above 128. -/
theorem byte_testBit7 (a : Nat) (h1 : a < 256) (h2 : 128 ≤ a) : a.testBit 7 = true := by
  rw [Nat.testBit_to_div_mod]
  have he2 : a / 128 = 1 := by omega
  simp [he2]

/-- The three-way bitwise-or test of the fast path holds exactly when
each byte is below 128. -/
theorem or3_lt_128 (a b c : Nat) (ha : a < 256) (hb : b < 256) (hc : c < 256) :
    a ||| b ||| c < 128 ↔ a < 128 ∧ b < 128 ∧ c < 128 := by
  have h128 : (128 : Nat) = 2 ^ 7 := by norm_num
  constructor
  · intro h
    refine ⟨?_, ?_, ?_⟩ <;> by_contra hx
    · have ht : (a ||| b ||| c).testBit 7 = true := by
        simp [Nat.testBit_or, byte_testBit7 a ha (by omega)]
      have := Nat.testBit_implies_ge ht
      omega
    · have ht : (a ||| b ||| c).testBit 7 = true := by
        simp [Nat.testBit_or, byte_testBit7 b hb (by omega)]
      have := Nat.testBit_implies_ge ht
      omega
    · have ht : (a ||| b ||| c).testBit 7 = true := by
        simp [Nat.testBit_or, byte_testBit7 c hc (by omega)]
      have := Nat.testBit_implies_ge ht
      omega
  · intro ⟨h1, h2, h3⟩
    rw [h128]
    exact Nat.or_lt_two_pow (Nat.or_lt_two_pow (by omega) (by omega)) (by omega)

/-- With fewer than three bytes before `limit`, three varint decodes
cannot all succeed. -/
theorem varint3_short (data : List Nat) (p limit : Nat) (h : limit - p < 3) :
    varint3 data p limit = none := by
  cases hv : varint3 data p limit with
  | none => rfl
  | some r =>
    obtain ⟨q, sh, ns, vl⟩ := r
    have := varint3_bounds data p limit q sh ns vl hv
    omega

/-- C7 (amended): `DecodeEntry` takes the single-byte fast path — each
length one raw byte, position advanced exactly 3 — exactly when three
bytes remain before `limit` and each of the three bytes is below 128;
otherwise its result is that of three varint-32 decodes (failure when
any decode passes `limit`); after the lengths are obtained it fails
exactly when `non_shared + value_length`, computed in 32-bit
arithmetic, exceeds the bytes remaining before `limit`; on success it
returns the position just past the three length fields. -/
theorem decode_entry_paths (data : List Nat) (p limit : Nat) :
    ((3 ≤ limit - p ∧ byteAt data p < 128 ∧ byteAt data (p + 1) < 128 ∧
        byteAt data (p + 2) < 128) →
      decodeEntry data p limit =
        if (limit - (p + 3)) % u32Mod <
            (byteAt data (p + 1) + byteAt data (p + 2)) % u32Mod then none
        else some (p + 3, byteAt data p, byteAt data (p + 1), byteAt data (p + 2))) ∧
    (¬(3 ≤ limit - p ∧ byteAt data p < 128 ∧ byteAt data (p + 1) < 128 ∧
        byteAt data (p + 2) < 128) →
      decodeEntry data p limit =
        match varint3 data p limit with
        | none => none
        | some (q, sh, ns, vl) =>
          if (limit - q) % u32Mod < (ns + vl) % u32Mod then none
          else some (q, sh, ns, vl)) ∧
    (∀ q sh ns vl, decodeEntry data p limit = some (q, sh, ns, vl) →
      p + 3 ≤ q ∧ q ≤ limit ∧ (ns + vl) % u32Mod ≤ (limit - q) % u32Mod) := by
  have hor := or3_lt_128 (byteAt data p) (byteAt data (p + 1)) (byteAt data (p + 2))
    (byteAt_lt data p) (byteAt_lt data (p + 1)) (byteAt_lt data (p + 2))
  refine ⟨?_, ?_, ?_⟩
  · intro ⟨h3, h1, h2, hc⟩
    unfold decodeEntry decodeLens
    rw [if_neg (by omega), if_pos (hor.mpr ⟨h1, h2, hc⟩)]
  · intro hno
    by_cases h3 : limit - p < 3
    · unfold decodeEntry
      rw [if_pos h3, varint3_short data p limit h3]
    · unfold decodeEntry decodeLens
      rw [if_neg h3, if_neg (by intro hcon; exact hno ⟨by omega, hor.mp hcon⟩)]
  · intro q sh ns vl h
    have hb := decodeEntry_bounds data p limit q sh ns vl h
    refine ⟨hb.1, hb.2, ?_⟩
    unfold decodeEntry at h
    by_cases h3 : limit - p < 3
    · rw [if_pos h3] at h; exact absurd h (by simp)
    · rw [if_neg h3] at h
      cases hl : decodeLens data p limit with
      | none => simp only [hl] at h; exact absurd h (by simp)
      | some r =>
        obtain ⟨q0, sh0, ns0, vl0⟩ := r
        simp only [hl] at h
        by_cases hc : (limit - q0) % u32Mod < (ns0 + vl0) % u32Mod
        · rw [if_pos hc] at h; exact absurd h (by simp)
        · rw [if_neg hc] at h
          obtain ⟨e1, e2, e3, e4⟩ : q0 = q ∧ sh0 = sh ∧ ns0 = ns ∧ vl0 = vl := by
            have h5 := Option.some.inj h
            exact ⟨congrArg (fun x => x.1) h5, congrArg (fun x => x.2.1) h5,
                   congrArg (fun x => x.2.2.1) h5, congrArg (fun x => x.2.2.2) h5⟩
          subst e1
          subst e3
          subst e4
          omega

/-- Witness for the amended C7: fast path on the first entry of
`wData`, varint path on `c7Data`, and the success bound at the first
entry of `wData`. -/
theorem decode_entry_paths_witness :
    ((3 ≤ 11 - 0 ∧ byteAt wData 0 < 128 ∧ byteAt wData 1 < 128 ∧ byteAt wData 2 < 128) ∧
      decodeEntry wData 0 11 =
        if (11 - 3) % u32Mod < (byteAt wData 1 + byteAt wData 2) % u32Mod then none
        else some (3, byteAt wData 0, byteAt wData 1, byteAt wData 2)) ∧
    (¬(3 ≤ 7 - 0 ∧ byteAt c7Data 0 < 128 ∧ byteAt c7Data 1 < 128 ∧
        byteAt c7Data 2 < 128) ∧
      decodeEntry c7Data 0 7 =
        match varint3 c7Data 0 7 with
        | none => none
        | some (q, sh, ns, vl) =>
          if (7 - q) % u32Mod < (ns + vl) % u32Mod then none
          else some (q, sh, ns, vl)) ∧
    (decodeEntry wData 0 11 = some (3, 0, 1, 1) ∧
      0 + 3 ≤ 3 ∧ 3 ≤ 11 ∧ (1 + 1) % u32Mod ≤ (11 - 3) % u32Mod) := by
  refine ⟨⟨by decide, ?_⟩, ⟨by decide, ?_⟩, by decide, ?_⟩
  · have h := (decode_entry_paths wData 0 11).1
    have h2 : byteAt wData 0 = 0 ∧ byteAt wData 1 = 1 ∧ byteAt wData 2 = 1 := by decide
    exact h (by decide)
  · exact (decode_entry_paths c7Data 0 7).2.1 (by decide)
  · exact (decode_entry_paths wData 0 11).2.2 3 0 1 1 (by decide)

/-- Counterexample to C7 as stated: at `c7Data` the varint-decoded
`non_shared` is `2 ^ 32 - 1` and `value_length` is 1, so their true
sum (`2 ^ 32`) exceeds the zero bytes remaining after the length
fields, yet `DecodeEntry` succeeds because the sum is computed in
32-bit arithmetic and wraps to 0. -/
theorem decode_entry_wraparound_counterexample :
    decodeEntry c7Data 0 7 = some (7, 0, 4294967295, 1) ∧
    7 - 7 < 4294967295 + 1 ∧ (4294967295 + 1) % u32Mod = 0 := by
  refine ⟨by decide, by decide, by decide⟩

/-! ### Claim C3: sticky corruption status -/

/-- The replay loop preserves the status or sets the corruption
status. -/
theorem scanToAux_status (B : BlockGeom) (bound : Nat) :
    ∀ fuel st, (scanToAux B bound fuel st).status = st.status ∨
      (scanToAux B bound fuel st).status = Status.corruption "bad entry in block" := by
  intro fuel
  induction fuel with
  | zero => intro st; exact Or.inl rfl
  | succ n ih =>
    intro st
    rw [scanToAux_succ]
    by_cases hc : (parseNextKey B st).2 = true ∧
        nextEntryOffset (parseNextKey B st).1 < bound
    · rw [if_pos hc]
      rcases ih (parseNextKey B st).1 with h | h <;> rcases parse_status B st with h2 | h2
      · exact Or.inl (h.trans h2)
      · exact Or.inr (h.trans h2)
      · exact Or.inr h
      · exact Or.inr h
    · rw [if_neg hc]
      exact parse_status B st

/-- The linear search preserves the status or sets the corruption
status. -/
theorem seekLinearAux_status (B : BlockGeom) (cmp : Cmp) (target : List Nat) :
    ∀ fuel st, (seekLinearAux B cmp target fuel st).status = st.status ∨
      (seekLinearAux B cmp target fuel st).status =
        Status.corruption "bad entry in block" := by
  intro fuel
  induction fuel with
  | zero => intro st; exact Or.inl rfl
  | succ n ih =>
    intro st
    rw [seekLinearAux_succ]
    by_cases h2 : (parseNextKey B st).2 = true
    · rw [if_pos h2]
      by_cases hcmp : 0 ≤ cmp (parseNextKey B st).1.key target
      · rw [if_pos hcmp]
        exact parse_status B st
      · rw [if_neg hcmp]
        rcases ih (parseNextKey B st).1 with h | h <;> rcases parse_status B st with h2b | h2b
        · exact Or.inl (h.trans h2b)
        · exact Or.inr (h.trans h2b)
        · exact Or.inr h
        · exact Or.inr h
    · rw [if_neg h2]
      exact parse_status B st

/-- `Prev` preserves the status or sets the corruption status. -/
theorem iterPrev_status (B : BlockGeom) (st : IterState) :
    (IterPrev B st).status = st.status ∨
    (IterPrev B st).status = Status.corruption "bad entry in block" := by
  cases hp : prevScan B st.current st.restart_index with
  | none =>
    simp only [IterPrev, hp]
    exact Or.inl trivial
  | some ri =>
    simp only [IterPrev, hp]
    exact scanToAux_status B st.current (B.restarts + 2) (seekToRestartPoint B st ri)

/-- `Seek` preserves the status or sets the corruption status. -/
theorem iterSeek_status (B : BlockGeom) (cmp : Cmp) (st : IterState) (target : List Nat) :
    (IterSeek B cmp st target).status = st.status ∨
    (IterSeek B cmp st target).status = Status.corruption "bad entry in block" := by
  rcases hsb : seekBinary B cmp target 0 (B.numRestarts - 1) with ⟨o, tr⟩
  cases o with
  | none =>
    have he : IterSeek B cmp st target = corruptionError B st := by
      simp only [IterSeek, hsb]
    rw [he]
    exact Or.inr rfl
  | some L =>
    have he : IterSeek B cmp st target =
        seekLinearAux B cmp target (B.restarts + 2) (seekToRestartPoint B st L) := by
      simp only [IterSeek, hsb]
    rw [he]
    exact seekLinearAux_status B cmp target (B.restarts + 2) (seekToRestartPoint B st L)

/-- One navigation operation preserves the status of an iterator or
sets the corruption status of `CorruptionError`. -/
theorem applyOp_status (o : NavOp) (it : BlockIter) :
    (applyOp o it).statusB = it.statusB ∨
    (applyOp o it).statusB = Status.corruption "bad entry in block" := by
  cases it with
  | errorIter s => rw [applyOp_error]; exact Or.inl rfl
  | emptyIter => rw [applyOp_empty]; exact Or.inl rfl
  | cursor c g st =>
    cases o with
    | next => exact parse_status g st
    | prev => exact iterPrev_status g st
    | seekOp t => exact iterSeek_status g c st t
    | seekToFirst => exact parse_status g (seekToRestartPoint g st 0)
    | seekToLast =>
      exact scanToAux_status g g.restarts (g.restarts + 2)
        (seekToRestartPoint g st (g.numRestarts - 1))

/-- C3 (amended): recording a corruption transitions the cursor to
Invalid with the status "bad entry in block", and that status is
sticky — every corruption writes the same status and nothing clears
it, so any sequence of navigation operations keeps `status()`
reporting it.  (A later successful reposition may make `valid()` true
again; see the counterexample.) -/
theorem sticky_corruption_status (B : BlockGeom) (st : IterState) :
    ((corruptionError B st).status = Status.corruption "bad entry in block" ∧
      IterValid B (corruptionError B st) = false) ∧
    (∀ (it : BlockIter) (ops : List NavOp),
      it.statusB = Status.corruption "bad entry in block" →
      (applyOps ops it).statusB = Status.corruption "bad entry in block") := by
  constructor
  · exact ⟨rfl, by simp [IterValid, corruptionError]⟩
  · intro it ops
    induction ops generalizing it with
    | nil => intro h; exact h
    | cons o rest ih =>
      intro h
      show (applyOps rest (applyOp o it)).statusB = Status.corruption "bad entry in block"
      apply ih
      rcases applyOp_status o it with h2 | h2
      · rw [h2, h]
      · exact h2

/-- Witness for the amended C3 on the concrete block `c3Data`: after
the corruption at the second entry, a `SeekToFirst` keeps the sticky
status. -/
theorem sticky_corruption_status_witness :
    ((corruptionError c3Geom (initIter c3Geom)).status =
        Status.corruption "bad entry in block" ∧
      IterValid c3Geom (corruptionError c3Geom (initIter c3Geom)) = false) ∧
    ((BlockIter.cursor byteCompare c3Geom
        (IterNext c3Geom (IterSeekToFirst c3Geom (initIter c3Geom)))).statusB =
      Status.corruption "bad entry in block") ∧
    (applyOps [NavOp.seekToFirst] (BlockIter.cursor byteCompare c3Geom
        (IterNext c3Geom (IterSeekToFirst c3Geom (initIter c3Geom))))).statusB =
      Status.corruption "bad entry in block" :=
  ⟨(sticky_corruption_status c3Geom (initIter c3Geom)).1, by decide,
   (sticky_corruption_status c3Geom (initIter c3Geom)).2
     (BlockIter.cursor byteCompare c3Geom
       (IterNext c3Geom (IterSeekToFirst c3Geom (initIter c3Geom))))
     [NavOp.seekToFirst] (by decide)⟩

/-- Counterexample to C3 as stated: on `c3Data`, after the corruption
recorded by `Next` at the second entry (iterator Invalid, sticky
status set), a subsequent `SeekToFirst` makes `valid()` true again —
the cursor is not pinned Invalid — while `status()` still reports the
corruption. -/
theorem sticky_pinned_invalid_counterexample :
    (IterNext c3Geom (IterSeekToFirst c3Geom (initIter c3Geom))).status =
      Status.corruption "bad entry in block" ∧
    IterValid c3Geom (IterNext c3Geom (IterSeekToFirst c3Geom (initIter c3Geom))) =
      false ∧
    IterValid c3Geom (IterSeekToFirst c3Geom
      (IterNext c3Geom (IterSeekToFirst c3Geom (initIter c3Geom)))) = true ∧
    (IterSeekToFirst c3Geom (IterNext c3Geom
      (IterSeekToFirst c3Geom (initIter c3Geom)))).status =
      Status.corruption "bad entry in block" := by
  refine ⟨by decide, by decide, by decide, by decide⟩

/-! ### Claim C5: backward iteration -/

/-- `getD` after `drop` reads at the shifted index. -/
theorem drop_getD {α : Type} (d : α) :
    ∀ (l : List α) (i j : Nat), (l.drop i).getD j d = l.getD (i + j) d := by
  intro l
  induction l with
  | nil => intro i j; simp
  | cons a t ih =>
    intro i j
    cases i with
    | zero => simp
    | succ ii =>
      simp only [List.drop_succ_cons]
      rw [ih ii j]
      have he : ii + 1 + j = (ii + j) + 1 := by omega
      rw [he, List.getD_cons_succ]

/-- Equal `stView` images give equal views at every index. -/
theorem map_stView_getD (l1 l2 : List IterState) (h : l1.map stView = l2.map stView)
    (j : Nat) (hj : j < l1.length) (d : IterState) :
    stView (l1.getD j d) = stView (l2.getD j d) := by
  have hlen : l1.length = l2.length := by
    have := congrArg List.length h
    simpa using this
  have h1 := getD_map stView d l1 j hj
  have h2 := getD_map stView d l2 j (by omega)
  rw [← h1, ← h2, h]

/-- A run whose views replay the canonical suffix from entry `dd` views
entry `dd + m` at index `m`. -/
theorem suffix_view (B : BlockGeom) (l : List IterState) (dd : Nat)
    (hmap : l.map stView = ((blockStates B).drop dd).map stView)
    (m : Nat) (hm : m < l.length) :
    stView (l.getD m (initIter B)) = stView (entryState B (dd + m)) := by
  have h := map_stView_getD l ((blockStates B).drop dd) hmap m hm (initIter B)
  rw [h, drop_getD]
  rfl

/-- One backward step: from a clean cursor sitting at entry `j` with an
in-range restart index, `Prev` goes Invalid with nothing else changed
when `j = 0`, and otherwise lands on a state viewing entry `j - 1`,
its restart index still in range. -/
theorem prev_step (B : BlockGeom) (cmp : Cmp) (hwf : WellFormed B cmp)
    (j : Nat) (hj : j < numEntries B) (st : IterState)
    (hcur : st.current = entryOff B j) (hri : st.restart_index < B.numRestarts)
    (hst : st.status = Status.ok) :
    (j = 0 →
      IterPrev B st = { st with current := B.restarts, restart_index := B.numRestarts }) ∧
    (0 < j →
      stView (IterPrev B st) = stView (entryState B (j - 1)) ∧
      (IterPrev B st).restart_index < B.numRestarts) := by
  have hk1 : 0 < numEntries B := by omega
  have hoff0 : entryOff B 0 = 0 := entry_off_zero B hk1 hwf.rp0
  constructor
  · intro h0
    subst h0
    have hcur0 : st.current = 0 := by rw [hcur, hoff0]
    have hn : prevScan B st.current st.restart_index = none :=
      prevScanAux_none B st.current (st.restart_index + 1) st.restart_index (by omega)
        (fun i2 _ => by omega)
    simp only [IterPrev, hn]
  · intro hpos
    have hjpos : 0 < entryOff B j := by
      have := entry_off_mono B j hj 0 hpos
      omega
    have hP0 : getRestartPoint B 0 < st.current := by
      rw [hwf.rp0, hcur]; exact hjpos
    have hi0 := Nat.findGreatest_spec (P := fun i => getRestartPoint B i < st.current)
      (Nat.zero_le st.restart_index) hP0
    have hi0b : getRestartPoint B
        (Nat.findGreatest (fun i => getRestartPoint B i < st.current)
          st.restart_index) < st.current := hi0
    have hi0le : Nat.findGreatest (fun i => getRestartPoint B i < st.current)
        st.restart_index ≤ st.restart_index :=
      Nat.findGreatest_le st.restart_index
    have hsome : prevScan B st.current st.restart_index =
        some (Nat.findGreatest (fun i => getRestartPoint B i < st.current)
          st.restart_index) :=
      prevScanAux_found B st.current (st.restart_index + 1) st.restart_index _
        (by omega) hi0le hi0b
        (fun i2 h1 h2 => by
          have := Nat.findGreatest_is_greatest
            (P := fun i => getRestartPoint B i < st.current) h1 h2
          omega)
    obtain ⟨jd, hjd, hoffd, q, ns, vl, hdec⟩ := hwf.boundary
      (Nat.findGreatest (fun i => getRestartPoint B i < st.current) st.restart_index)
      (by omega)
    obtain ⟨l, f, hrun, hmap, hfstat⟩ := restart_suffix B cmp hwf
      (Nat.findGreatest (fun i => getRestartPoint B i < st.current) st.restart_index)
      (by omega) jd hjd hoffd.symm q ns vl hdec st hst
    have hdj : jd < j := by
      by_contra hcon
      rcases Nat.lt_or_ge j jd with h1 | h1
      · have h2 := entry_off_mono B jd hjd j h1
        rw [hoffd] at h2
        omega
      · have he : jd = j := by omega
        rw [he] at hoffd
        omega
    have hlen : l.length = numEntries B - jd := by
      have := congrArg List.length hmap
      simpa [numEntries] using this
    have hm : j - 1 - jd < l.length := by omega
    have hprev : IterPrev B st = scanToAux B st.current (B.restarts + 2)
        (seekToRestartPoint B st
          (Nat.findGreatest (fun i => getRestartPoint B i < st.current)
            st.restart_index)) := by
      simp only [IterPrev, hsome]
    have hview : ∀ m2 < l.length,
        stView (l.getD m2 (initIter B)) = stView (entryState B (jd + m2)) :=
      fun m2 hm2 => suffix_view B l jd hmap m2 hm2
    have hneo_eq : ∀ m2 < l.length,
        nextEntryOffset (l.getD m2 (initIter B)) =
          nextEntryOffset (entryState B (jd + m2)) := by
      intro m2 hm2
      have h := hview m2 hm2
      simp only [stView, Prod.mk.injEq] at h
      simp only [nextEntryOffset, h.2.2.1, h.2.2.2.1]
    have hres : scanToAux B st.current (B.restarts + 2)
        (seekToRestartPoint B st
          (Nat.findGreatest (fun i => getRestartPoint B i < st.current)
            st.restart_index)) = l.getD (j - 1 - jd) (initIter B) := by
      apply scanToAux_hit B st.current _ l f hrun (B.restarts + 2) (j - 1 - jd)
        (by have := run_length B _ l f hrun; omega) hm
      · intro j2 hj2
        rw [hneo_eq j2 (by omega)]
        rw [← entry_off_succ B (jd + j2) (by omega)]
        rw [hcur]
        exact entry_off_mono B j hj (jd + j2 + 1) (by omega)
      · rw [hneo_eq (j - 1 - jd) hm]
        have he2 : jd + (j - 1 - jd) = j - 1 := by omega
        rw [he2, ← entry_off_succ B (j - 1) (by omega)]
        have he3 : j - 1 + 1 = j := by omega
        rw [he3, hcur]
    constructor
    · rw [hprev, hres]
      have h := hview (j - 1 - jd) hm
      have he2 : jd + (j - 1 - jd) = j - 1 := by omega
      rw [he2] at h
      exact h
    · rw [hprev, hres]
      have hri2 : (seekToRestartPoint B st
          (Nat.findGreatest (fun i => getRestartPoint B i < st.current)
            st.restart_index)).restart_index < B.numRestarts := by
        simp only [seekToRestartPoint]
        omega
      exact run_ri B _ l f hrun hri2 (l.getD (j - 1 - jd) (initIter B))
        (getD_mem (initIter B) l (j - 1 - jd) hm)

/-- `getD` within bounds is `getElem`. -/
theorem getD_eq_getElem {α : Type} (d : α) :
    ∀ (l : List α) (j : Nat) (h : j < l.length), l.getD j d = l[j] := by
  intro l
  induction l with
  | nil => intro j h; exact absurd h (by simp)
  | cons a t ih =>
    intro j h
    cases j with
    | zero => rfl
    | succ jj => simpa using ih jj (by simpa using h)

/-- C5: collecting all entries by forward iteration and then calling
`Prev` repeatedly from the last entry yields exactly the reverse of
the forward sequence of key-value pairs; the iterator stays valid for
the first `numEntries` positions and becomes Invalid, with no error
set, exactly when no previous entry exists. -/
theorem prev_reverse_iteration (B : BlockGeom) (cmp : Cmp) (hwf : WellFormed B cmp) :
    ((List.range (numEntries B)).map fun m =>
        (((IterPrev B)^[m] (entryState B (numEntries B - 1))).key,
          valueBytes B ((IterPrev B)^[m] (entryState B (numEntries B - 1))))) =
      (entriesList B).reverse ∧
    (∀ m < numEntries B,
      IterValid B ((IterPrev B)^[m] (entryState B (numEntries B - 1))) = true) ∧
    IterValid B ((IterPrev B)^[numEntries B] (entryState B (numEntries B - 1))) = false ∧
    ((IterPrev B)^[numEntries B] (entryState B (numEntries B - 1))).status =
      Status.ok := by
  obtain ⟨j0, hj0, _⟩ := hwf.boundary 0 hwf.nrPos
  have hk1 : 0 < numEntries B := by omega
  have main : ∀ m, m ≤ numEntries B - 1 →
      stView ((IterPrev B)^[m] (entryState B (numEntries B - 1))) =
        stView (entryState B (numEntries B - 1 - m)) ∧
      ((IterPrev B)^[m] (entryState B (numEntries B - 1))).restart_index <
        B.numRestarts := by
    intro m
    induction m with
    | zero =>
      intro _
      rw [Function.iterate_zero_apply]
      exact ⟨rfl, entry_ri B hwf.nrPos (numEntries B - 1) (by omega)⟩
    | succ mm ih =>
      intro hm
      obtain ⟨ihv, ihri⟩ := ih (by omega)
      rw [Function.iterate_succ_apply']
      simp only [stView, Prod.mk.injEq] at ihv
      have hcur : ((IterPrev B)^[mm] (entryState B (numEntries B - 1))).current =
          entryOff B (numEntries B - 1 - mm) := ihv.1
      have hst : ((IterPrev B)^[mm] (entryState B (numEntries B - 1))).status =
          Status.ok := by
        rw [ihv.2.2.2.2]
        exact entry_status B (numEntries B - 1 - mm) (by omega)
      have hps := prev_step B cmp hwf (numEntries B - 1 - mm) (by omega)
        ((IterPrev B)^[mm] (entryState B (numEntries B - 1))) hcur ihri hst
      obtain ⟨hv, hri⟩ := hps.2 (by omega)
      rw [show numEntries B - 1 - mm - 1 = numEntries B - 1 - (mm + 1) from by omega] at hv
      exact ⟨hv, hri⟩
  have hvalid : ∀ m < numEntries B,
      IterValid B ((IterPrev B)^[m] (entryState B (numEntries B - 1))) = true := by
    intro m hm
    obtain ⟨hv, _⟩ := main m (by omega)
    simp only [stView, Prod.mk.injEq] at hv
    have hlt := (entry_lt_restarts B (numEntries B - 1 - m) (by omega)).1
    simp only [IterValid, hv.1, decide_eq_true_eq]
    exact hlt
  obtain ⟨hv0, hri0⟩ := main (numEntries B - 1) (by omega)
  simp only [stView, Prod.mk.injEq] at hv0
  have hcur0 : ((IterPrev B)^[numEntries B - 1] (entryState B (numEntries B - 1))).current
      = entryOff B 0 := by
    have he : numEntries B - 1 - (numEntries B - 1) = 0 := by omega
    rw [← he]
    exact hv0.1
  have hst0 : ((IterPrev B)^[numEntries B - 1] (entryState B (numEntries B - 1))).status
      = Status.ok := by
    rw [hv0.2.2.2.2]
    exact entry_status B (numEntries B - 1 - (numEntries B - 1)) (by omega)
  have hps0 := (prev_step B cmp hwf 0 hk1
    ((IterPrev B)^[numEntries B - 1] (entryState B (numEntries B - 1))) hcur0 hri0
    hst0).1 rfl
  have hiter : (IterPrev B)^[numEntries B] (entryState B (numEntries B - 1)) =
      IterPrev B ((IterPrev B)^[numEntries B - 1] (entryState B (numEntries B - 1))) := by
    rw [show numEntries B = (numEntries B - 1) + 1 from by omega,
      Function.iterate_succ_apply']
    rfl
  refine ⟨?_, hvalid, ?_, ?_⟩
  · apply List.ext_getElem
    · simp [entriesList, numEntries]
    · intro i h1 h2
      have hi : i < numEntries B := by simpa using h1
      obtain ⟨hv, _⟩ := main i (by omega)
      simp only [stView, Prod.mk.injEq] at hv
      have hlen : (entriesList B).length = numEntries B := by
        simp [entriesList, numEntries]
      simp only [List.getElem_map, List.getElem_range, List.getElem_reverse]
      have hidx : (entriesList B).length - 1 - i < (blockStates B).length := by
        simp [entriesList] at hlen ⊢
        omega
      have hee : (entriesList B)[(entriesList B).length - 1 - i] =
          ((blockStates B)[(entriesList B).length - 1 - i].key,
            valueBytes B (blockStates B)[(entriesList B).length - 1 - i]) := by
        simp [entriesList]
      rw [hee]
      have hes : entryState B (numEntries B - 1 - i) =
          (blockStates B)[(entriesList B).length - 1 - i] := by
        rw [entryState, getD_eq_getElem (initIter B) (blockStates B)
          (numEntries B - 1 - i) (by omega)]
        congr 1
        omega
      rw [Prod.mk.injEq]
      constructor
      · rw [hv.2.1, hes]
      · rw [valueBytes, hv.2.2.1, hv.2.2.2.1, ← hes]
        rfl
  · rw [hiter, hps0]
    simp [IterValid]
  · rw [hiter, hps0]
    exact hst0

/-- The lexicographic comparator is reflexive. -/
theorem byteCompare_refl : ∀ a : List Nat, byteCompare a a = 0 := by
  intro a
  induction a with
  | nil => rfl
  | cons x xs ih =>
    simp only [byteCompare]
    rw [if_neg (by omega), if_neg (by omega)]
    exact ih

/-- The lexicographic comparator is transitive on strict comparisons. -/
theorem byteCompare_trans_lt :
    ∀ a b c : List Nat, byteCompare a b < 0 → byteCompare b c < 0 →
      byteCompare a c < 0 := by
  intro a
  induction a with
  | nil =>
    intro b c h1 h2
    cases b with
    | nil => simp [byteCompare] at h1
    | cons y ys =>
      cases c with
      | nil => simp [byteCompare] at h2
      | cons z zs => simp [byteCompare]
  | cons x xs ih =>
    intro b c h1 h2
    cases b with
    | nil => simp [byteCompare] at h1
    | cons y ys =>
      cases c with
      | nil => simp [byteCompare] at h2
      | cons z zs =>
        simp only [byteCompare] at h1 h2 ⊢
        by_cases hxy : x < y
        · rw [if_pos hxy] at h1
          by_cases hyz : y < z
          · rw [if_pos (by omega : x < z)]
            norm_num
          · rw [if_neg hyz] at h2
            by_cases hzy : z < y
            · rw [if_pos hzy] at h2
              exact absurd h2 (by norm_num)
            · rw [if_pos (by omega : x < z)]
              norm_num
        · rw [if_neg hxy] at h1
          by_cases hyx : y < x
          · rw [if_pos hyx] at h1
            exact absurd h1 (by norm_num)
          · rw [if_neg hyx] at h1
            by_cases hyz : y < z
            · rw [if_pos (by omega : x < z)]
              norm_num
            · rw [if_neg hyz] at h2
              by_cases hzy : z < y
              · rw [if_pos hzy] at h2
                exact absurd h2 (by norm_num)
              · rw [if_neg hzy] at h2
                rw [if_neg (by omega : ¬x < z), if_neg (by omega : ¬z < x)]
                exact ih ys zs h1 h2

/-- The lexicographic comparator is a total order comparator. -/
theorem byteCompare_cmpOk : CmpOk byteCompare :=
  ⟨byteCompare_refl, byteCompare_trans_lt⟩

/-- The concrete block `wData` is well formed under the lexicographic
comparator. -/
theorem wGeom_wf : WellFormed wGeom byteCompare := by
  refine ⟨by decide, by decide, by decide, ?_, by decide, by decide⟩
  intro i hi
  have hi2 : i < 2 := hi
  interval_cases i
  · exact ⟨0, by decide, by decide, 3, 1, 1, by decide⟩
  · exact ⟨1, by decide, by decide, 8, 2, 1, by decide⟩

/-- Witness for C5 on the concrete block `wData`. -/
theorem prev_reverse_iteration_witness :
    WellFormed wGeom byteCompare ∧
    (((List.range (numEntries wGeom)).map fun m =>
        (((IterPrev wGeom)^[m] (entryState wGeom (numEntries wGeom - 1))).key,
          valueBytes wGeom
            ((IterPrev wGeom)^[m] (entryState wGeom (numEntries wGeom - 1))))) =
      (entriesList wGeom).reverse ∧
    (∀ m < numEntries wGeom,
      IterValid wGeom
        ((IterPrev wGeom)^[m] (entryState wGeom (numEntries wGeom - 1))) = true) ∧
    IterValid wGeom
      ((IterPrev wGeom)^[numEntries wGeom] (entryState wGeom (numEntries wGeom - 1))) =
      false ∧
    ((IterPrev wGeom)^[numEntries wGeom]
      (entryState wGeom (numEntries wGeom - 1))).status = Status.ok) :=
  ⟨wGeom_wf, prev_reverse_iteration wGeom byteCompare wGeom_wf⟩

/-! ### Claim C1: Seek correctness -/

/-- C1: on a well-formed sorted block, `Seek(target)` leaves the
iterator positioned on the first entry whose key compares at or above
`target` under the comparator — in particular, for a `target` equal to
an existing key, exactly on that entry — or Invalid with no error set
when no such entry exists. -/
theorem seek_lands_on_first_ge (B : BlockGeom) (cmp : Cmp) (target : List Nat)
    (st : IterState) (hwf : WellFormed B cmp) (hc : CmpOk cmp)
    (hst : st.status = Status.ok) :
    (firstGE B cmp target < numEntries B →
      (IterSeek B cmp st target).current = entryOff B (firstGE B cmp target) ∧
      (IterSeek B cmp st target).key = entryKey B (firstGE B cmp target) ∧
      valueBytes B (IterSeek B cmp st target) = entryVal B (firstGE B cmp target) ∧
      IterValid B (IterSeek B cmp st target) = true ∧
      (IterSeek B cmp st target).status = Status.ok) ∧
    (firstGE B cmp target = numEntries B →
      IterValid B (IterSeek B cmp st target) = false ∧
      (IterSeek B cmp st target).status = Status.ok) ∧
    (∀ j0 < numEntries B, target = entryKey B j0 →
      (IterSeek B cmp st target).current = entryOff B j0 ∧
      (IterSeek B cmp st target).key = target) := by
  have hk1 : 0 < numEntries B := by
    obtain ⟨j0, hj0, _⟩ := hwf.boundary 0 hwf.nrPos
    omega
  obtain ⟨L, hL, hinv, hLr⟩ := seekBinaryAux_inv B cmp target hwf
    (B.numRestarts - 1 - 0 + 1) 0 (B.numRestarts - 1) (by omega) (by omega)
    (by have := hwf.nrPos; omega) (Or.inl rfl)
  have hconv : firstGE B cmp target = findGE cmp target (blockStates B) := rfl
  have hconv2 : numEntries B = (blockStates B).length := rfl
  have h1 : (seekBinary B cmp target 0 (B.numRestarts - 1)).1 = some L := hL
  rcases hsb2 : seekBinary B cmp target 0 (B.numRestarts - 1) with ⟨o, tr⟩
  rw [hsb2] at h1
  have ho : o = some L := h1
  subst ho
  have hIS : IterSeek B cmp st target =
      seekLinearAux B cmp target (B.restarts + 2) (seekToRestartPoint B st L) := by
    simp only [IterSeek, hsb2]
  have hLnr : L < B.numRestarts := by have := hwf.nrPos; omega
  obtain ⟨dL, hdL, hoffL, q, ns, vl, hdecL⟩ := hwf.boundary L hLnr
  obtain ⟨l, f, hrun, hmap, hfstat⟩ := restart_suffix B cmp hwf L hLnr dL hdL
    hoffL.symm q ns vl hdecL st hst
  have hlen : l.length = numEntries B - dL := by
    have := congrArg List.length hmap
    simpa [numEntries] using this
  have hfle : firstGE B cmp target ≤ numEntries B :=
    findGE_le_length cmp target (blockStates B)
  have hdle : dL ≤ firstGE B cmp target := by
    rcases hinv with h0 | ⟨j2, hj2, hoff2, hcmp2⟩
    · have hdl0 : dL = 0 := by
        apply entry_off_inj B dL 0 hdL hk1
        rw [hoffL, h0, hwf.rp0, entry_off_zero B hk1 hwf.rp0]
      omega
    · have hj2d : j2 = dL :=
        entry_off_inj B j2 dL hj2 hdL (hoff2.symm.trans hoffL.symm)
      rw [hj2d] at hcmp2
      by_contra hcon
      have hflt : firstGE B cmp target < dL := by omega
      have hge : 0 ≤ cmp (entryKey B (firstGE B cmp target)) target :=
        findGE_at cmp target (initIter B) (blockStates B) (by omega)
      have hlt2 := hwf.sorted dL hdL (firstGE B cmp target) hflt
      have hlt3 := hc.trans_lt (entryKey B (firstGE B cmp target)) (entryKey B dL)
        target hlt2 hcmp2
      omega
  have hpart1 : firstGE B cmp target < numEntries B →
      (IterSeek B cmp st target).current = entryOff B (firstGE B cmp target) ∧
      (IterSeek B cmp st target).key = entryKey B (firstGE B cmp target) ∧
      valueBytes B (IterSeek B cmp st target) = entryVal B (firstGE B cmp target) ∧
      IterValid B (IterSeek B cmp st target) = true ∧
      (IterSeek B cmp st target).status = Status.ok := by
    intro hjk
    have hm : firstGE B cmp target - dL < l.length := by omega
    have hres : seekLinearAux B cmp target (B.restarts + 2)
        (seekToRestartPoint B st L) = l.getD (firstGE B cmp target - dL) (initIter B) := by
      apply seekLinearAux_hit B cmp target (seekToRestartPoint B st L) l f hrun
        (B.restarts + 2) (firstGE B cmp target - dL)
        (by have := run_length B (seekToRestartPoint B st L) l f hrun; omega) hm
      · intro j2 hj2
        have hv := suffix_view B l dL hmap j2 (by omega)
        simp only [stView, Prod.mk.injEq] at hv
        rw [hv.2.1]
        exact findGE_before cmp target (initIter B) (blockStates B) (dL + j2) (by omega)
      · have hv := suffix_view B l dL hmap (firstGE B cmp target - dL) hm
        simp only [stView, Prod.mk.injEq] at hv
        rw [hv.2.1]
        rw [show dL + (firstGE B cmp target - dL) = firstGE B cmp target from by omega]
        exact findGE_at cmp target (initIter B) (blockStates B) hjk
    have hv := suffix_view B l dL hmap (firstGE B cmp target - dL) hm
    rw [show dL + (firstGE B cmp target - dL) = firstGE B cmp target from by omega] at hv
    simp only [stView, Prod.mk.injEq] at hv
    rw [hIS, hres]
    refine ⟨hv.1, hv.2.1, ?_, ?_, ?_⟩
    · rw [valueBytes, hv.2.2.1, hv.2.2.2.1]
      rfl
    · simp only [IterValid, hv.1, decide_eq_true_eq]
      exact (entry_lt_restarts B (firstGE B cmp target) hjk).1
    · rw [hv.2.2.2.2]
      exact entry_status B (firstGE B cmp target) hjk
  refine ⟨hpart1, ?_, ?_⟩
  · intro hjk
    have hall : ∀ s2 ∈ l, cmp s2.key target < 0 := by
      intro s2 hs2
      obtain ⟨i2, hi2, he2⟩ := List.getElem_of_mem hs2
      have hv := suffix_view B l dL hmap i2 hi2
      rw [getD_eq_getElem (initIter B) l i2 hi2, he2] at hv
      simp only [stView, Prod.mk.injEq] at hv
      rw [hv.2.1]
      exact findGE_before cmp target (initIter B) (blockStates B) (dL + i2) (by omega)
    have hres : seekLinearAux B cmp target (B.restarts + 2)
        (seekToRestartPoint B st L) = f :=
      seekLinearAux_exhaust B cmp target (seekToRestartPoint B st L) l f hrun
        (B.restarts + 2)
        (by have := run_length B (seekToRestartPoint B st L) l f hrun; omega) hall
    rw [hIS, hres]
    constructor
    · have hfin := run_final B (seekToRestartPoint B st L) l f hrun
      simp [IterValid, hfin.1]
    · exact hfstat
  · intro j0 hj0 htar
    have hfe : firstGE B cmp target = j0 := by
      have hle1 : ¬firstGE B cmp target < j0 := by
        intro hlt
        have hge : 0 ≤ cmp (entryKey B (firstGE B cmp target)) target :=
          findGE_at cmp target (initIter B) (blockStates B) (by omega)
        have hso := hwf.sorted j0 hj0 (firstGE B cmp target) hlt
        rw [← htar] at hso
        omega
      have hle2 : ¬j0 < firstGE B cmp target := by
        intro hlt
        have h2 : cmp (entryKey B j0) target < 0 :=
          findGE_before cmp target (initIter B) (blockStates B) j0 hlt
        rw [htar] at h2
        have := hc.refl (entryKey B j0)
        omega
      omega
    obtain ⟨hcur, hkey, _, _, _⟩ := hpart1 (by omega)
    rw [hfe] at hcur hkey
    exact ⟨hcur, by rw [hkey, ← htar]⟩

/-- Witness for C1: seeking `[98]` in the concrete block `wData`. -/
theorem seek_lands_on_first_ge_witness :
    WellFormed wGeom byteCompare ∧ CmpOk byteCompare ∧
    (initIter wGeom).status = Status.ok ∧
    ((firstGE wGeom byteCompare [98] < numEntries wGeom →
      (IterSeek wGeom byteCompare (initIter wGeom) [98]).current =
        entryOff wGeom (firstGE wGeom byteCompare [98]) ∧
      (IterSeek wGeom byteCompare (initIter wGeom) [98]).key =
        entryKey wGeom (firstGE wGeom byteCompare [98]) ∧
      valueBytes wGeom (IterSeek wGeom byteCompare (initIter wGeom) [98]) =
        entryVal wGeom (firstGE wGeom byteCompare [98]) ∧
      IterValid wGeom (IterSeek wGeom byteCompare (initIter wGeom) [98]) = true ∧
      (IterSeek wGeom byteCompare (initIter wGeom) [98]).status = Status.ok) ∧
    (firstGE wGeom byteCompare [98] = numEntries wGeom →
      IterValid wGeom (IterSeek wGeom byteCompare (initIter wGeom) [98]) = false ∧
      (IterSeek wGeom byteCompare (initIter wGeom) [98]).status = Status.ok) ∧
    (∀ j0 < numEntries wGeom, [98] = entryKey wGeom j0 →
      (IterSeek wGeom byteCompare (initIter wGeom) [98]).current = entryOff wGeom j0 ∧
      (IterSeek wGeom byteCompare (initIter wGeom) [98]).key = [98])) :=
  ⟨wGeom_wf, byteCompare_cmpOk, rfl,
   seek_lands_on_first_ge wGeom byteCompare [98] (initIter wGeom) wGeom_wf
     byteCompare_cmpOk rfl⟩
